import Mathlib

/-!
Verification of the 256-bit GPU MSM kernel (Pallas curve) of this repository.

The WGSL shaders and TypeScript helpers are shallowly embedded:
`u32` values become natural numbers with every arithmetic result reduced
`% U32`, `array<u32, 8>` / `array<u32, 16>` limb arrays become `List ℕ`
(little-endian, limb 0 least significant), and each shader loop becomes a
structurally recursive Lean function mirroring the loop body.
-/

/-- The u32 modulus 2^32. -/
def U32 : ℕ := 4294967296

/-- Wrapping u32 addition. -/
def u32add (x y : ℕ) : ℕ := (x + y) % U32

/-- Wrapping u32 subtraction (correct u32 semantics for `x, y < U32`). -/
def u32sub (x y : ℕ) : ℕ := (x + U32 - y) % U32

/-- Little-endian value of a limb list: `limbs[0]` is least significant. -/
def limbsVal : List ℕ → ℕ
  | [] => 0
  | a :: as => a + U32 * limbsVal as

/-- All limbs are in u32 range. -/
def limbsBounded (l : List ℕ) : Prop := ∀ x ∈ l, x < U32

instance (l : List ℕ) : Decidable (limbsBounded l) :=
  inferInstanceAs (Decidable (∀ x ∈ l, x < U32))

theorem limbsVal_lt (l : List ℕ) (h : limbsBounded l) : limbsVal l < U32 ^ l.length := by
  induction l with
  | nil => simp [limbsVal]
  | cons a as ih =>
    have ha : a < U32 := h a (by simp)
    have has : limbsBounded as := fun x hx => h x (by simp [hx])
    have := ih has
    simp only [limbsVal, List.length_cons, pow_succ]
    calc a + U32 * limbsVal as < U32 + U32 * limbsVal as := by omega
    _ = U32 * (limbsVal as + 1) := by ring
    _ ≤ U32 * U32 ^ as.length := by
        have : limbsVal as + 1 ≤ U32 ^ as.length := this
        exact Nat.mul_le_mul_left _ this
    _ = U32 ^ as.length * U32 := by ring

theorem U32_eq : U32 = 4294967296 := rfl

/-!
## The 32×32→64 multiply-accumulate primitive

`mul_add_carry` is the variant from `src/gpu/256bit/helpers.ts` (the
arithmetic fragment bundled with it), which shifts `mid_carry` left by 16
when assembling the high word.  `mul_add_carry256` is the variant from
`src/gpu/256bit/arithmetic.wgsl` (also the body of `mul_add_carry` in the
standalone MSM shader, `unnamed/part_000`), which adds `mid_carry`
unshifted.  `x & 0xFFFF` is `x % 65536`, `x >> 16` is `x / 65536`, and every
u32 arithmetic result is reduced `% U32`.
-/

/-- Source: `fn mul_add_carry` (helpers.ts bundle, lines 112–147). Returns
`(result, new_carry)`. -/
def mul_add_carry (a b acc carry : ℕ) : ℕ × ℕ :=
  let a_lo := a % 65536
  let a_hi := a / 65536
  let b_lo := b % 65536
  let b_hi := b / 65536
  let p0 := (a_lo * b_lo) % U32
  let p1 := (a_lo * b_hi) % U32
  let p2 := (a_hi * b_lo) % U32
  let p3 := (a_hi * b_hi) % U32
  let mid := (p1 + p2) % U32
  let mid_carry := if mid < p1 then 1 else 0
  let low := (p0 + (mid * 65536) % U32) % U32
  let low_carry := if low < p0 then 1 else 0
  let high := (p3 + mid / 65536 + (mid_carry * 65536) % U32 + low_carry) % U32
  let temp := (low + acc) % U32
  let temp_carry := if temp < low then 1 else 0
  let final_res := (temp + carry) % U32
  let final_carry := if final_res < temp then 1 else 0
  (final_res, (high + temp_carry + final_carry) % U32)

/-- Source: `fn mul_add_carry256` (arithmetic.wgsl, lines 67–94); identical
to `mul_add_carry` except that `mid_carry` enters `high` unshifted. -/
def mul_add_carry256 (a b acc carry : ℕ) : ℕ × ℕ :=
  let a_lo := a % 65536
  let a_hi := a / 65536
  let b_lo := b % 65536
  let b_hi := b / 65536
  let p0 := (a_lo * b_lo) % U32
  let p1 := (a_lo * b_hi) % U32
  let p2 := (a_hi * b_lo) % U32
  let p3 := (a_hi * b_hi) % U32
  let mid := (p1 + p2) % U32
  let mid_carry := if mid < p1 then 1 else 0
  let low := (p0 + (mid * 65536) % U32) % U32
  let low_carry := if low < p0 then 1 else 0
  let high := (p3 + mid / 65536 + mid_carry + low_carry) % U32
  let res := (low + acc) % U32
  let res_carry := if res < low then 1 else 0
  let final_res := (res + carry) % U32
  let final_carry := if final_res < res then 1 else 0
  (final_res, (high + res_carry + final_carry) % U32)

theorem mul_add_carry_exact (a b acc carry : ℕ)
    (ha : a < U32) (hb : b < U32) (hacc : acc < U32) (hc : carry < U32) :
    (mul_add_carry a b acc carry).1 + U32 * (mul_add_carry a b acc carry).2
      = a * b + acc + carry ∧
    (mul_add_carry a b acc carry).1 < U32 ∧
    (mul_add_carry a b acc carry).2 < U32 := by
  have e16 : (65536 : ℕ) * 65536 = U32 := by decide
  have hkey : a * b = U32 * (a / 65536 * (b / 65536))
      + 65536 * (a % 65536 * (b / 65536) + a / 65536 * (b % 65536))
      + a % 65536 * (b % 65536) := by
    conv_lhs => rw [← Nat.div_add_mod a 65536, ← Nat.div_add_mod b 65536]
    rw [← e16]; ring
  rw [U32_eq] at ha hb
  have hb0 : a % 65536 * (b % 65536) ≤ 65535 * 65535 :=
    Nat.mul_le_mul (show a % 65536 ≤ 65535 by omega) (show b % 65536 ≤ 65535 by omega)
  have hb1 : a % 65536 * (b / 65536) ≤ 65535 * 65535 :=
    Nat.mul_le_mul (show a % 65536 ≤ 65535 by omega) (show b / 65536 ≤ 65535 by omega)
  have hb2 : a / 65536 * (b % 65536) ≤ 65535 * 65535 :=
    Nat.mul_le_mul (show a / 65536 ≤ 65535 by omega) (show b % 65536 ≤ 65535 by omega)
  have hb3 : a / 65536 * (b / 65536) ≤ 65535 * 65535 :=
    Nat.mul_le_mul (show a / 65536 ≤ 65535 by omega) (show b / 65536 ≤ 65535 by omega)
  simp only [mul_add_carry, U32_eq]
  rw [U32_eq] at hkey
  simp only [Nat.mod_eq_of_lt (show a % 65536 * (b % 65536) < 4294967296 by omega),
    Nat.mod_eq_of_lt (show a % 65536 * (b / 65536) < 4294967296 by omega),
    Nat.mod_eq_of_lt (show a / 65536 * (b % 65536) < 4294967296 by omega),
    Nat.mod_eq_of_lt (show a / 65536 * (b / 65536) < 4294967296 by omega)]
  generalize hP0 : a % 65536 * (b % 65536) = P0 at *
  generalize hP1 : a % 65536 * (b / 65536) = P1 at *
  generalize hP2 : a / 65536 * (b % 65536) = P2 at *
  generalize hP3 : a / 65536 * (b / 65536) = P3 at *
  generalize hAB : a * b = AB at *
  split_ifs <;> omega

/-!
## 256-bit compare and borrow-free subtraction
-/

/-- Source: `fn gte_256` loop body at index `i`, comparing from the most
significant limb down; equality falls through to `true`. -/
def gte_aux (a b : List ℕ) : ℕ → Bool
  | 0 => decide (b.getD 0 0 ≤ a.getD 0 0)
  | i + 1 =>
    if b.getD (i + 1) 0 < a.getD (i + 1) 0 then true
    else if a.getD (i + 1) 0 < b.getD (i + 1) 0 then false
    else gte_aux a b i

/-- Source: `fn gte_256` (helpers.ts bundle, lines 32–41): `a ≥ b` on 8-limb
values. -/
def gte_256 (a b : List ℕ) : Bool := gte_aux a b 7

/-- Source: the loop of `fn sub_no_borrow_256` (helpers.ts bundle,
lines 48–67).  The comparison `ai >= (bi + borrow)` and both limb formulas
use wrapping u32 arithmetic, exactly as WGSL evaluates them. -/
def sub_borrow_aux : List ℕ → List ℕ → ℕ → List ℕ
  | [], _, _ => []
  | _ :: _, [], _ => []
  | ai :: as, bi :: bs, borrow =>
    if (bi + borrow) % U32 ≤ ai then
      u32sub (u32sub ai bi) borrow :: sub_borrow_aux as bs 0
    else
      u32add (u32add (u32sub (u32sub 4294967295 bi) borrow) 1) ai :: sub_borrow_aux as bs 1

/-- Source: `fn sub_no_borrow_256` with initial borrow 0. -/
def sub_no_borrow_256 (a b : List ℕ) : List ℕ := sub_borrow_aux a b 0

theorem sub_borrow_aux_exact : ∀ (a b : List ℕ) (brw : ℕ),
    a.length = b.length → limbsBounded a → limbsBounded b → brw ≤ 1 →
    (∀ x ∈ b, x < 4294967295) →
    ∃ bo ≤ 1,
      limbsVal (sub_borrow_aux a b brw) + limbsVal b + brw
        = limbsVal a + bo * U32 ^ a.length ∧
      limbsBounded (sub_borrow_aux a b brw) ∧
      (sub_borrow_aux a b brw).length = a.length
  | [], [], brw, _, _, _, hbrw, _ => by
    refine ⟨brw, hbrw, ?_, ?_, rfl⟩
    · simp [sub_borrow_aux, limbsVal]
    · intro x hx; simp [sub_borrow_aux] at hx
  | [], _ :: _, _, hlen, _, _, _, _ => by simp at hlen
  | _ :: _, [], _, hlen, _, _, _, _ => by simp at hlen
  | ai :: as, bi :: bs, brw, hlen, ha, hb, hbrw, hble => by
    have hai : ai < U32 := ha ai (by simp)
    have hbi : bi < U32 := hb bi (by simp)
    have hbile : bi < 4294967295 := hble bi (by simp)
    have ha' : limbsBounded as := fun x hx => ha x (by simp [hx])
    have hb' : limbsBounded bs := fun x hx => hb x (by simp [hx])
    have hble' : ∀ x ∈ bs, x < 4294967295 := fun x hx => hble x (by simp [hx])
    have hlen' : as.length = bs.length := by simpa using hlen
    rw [U32_eq] at hai hbi
    have hcond : (bi + brw) % U32 = bi + brw := by
      rw [U32_eq]; omega
    simp only [sub_borrow_aux, hcond]
    by_cases hc : bi + brw ≤ ai
    · obtain ⟨bo, hbo, hval, hbnd, hln⟩ :=
        sub_borrow_aux_exact as bs 0 hlen' ha' hb' (by omega) hble'
      have hdig : u32sub (u32sub ai bi) brw = ai - bi - brw := by
        simp only [u32sub, U32_eq]; omega
      refine ⟨bo, hbo, ?_, ?_, ?_⟩
      · simp only [if_pos hc, limbsVal, hdig, List.length_cons, pow_succ]
        rw [show U32 ^ as.length * U32 = U32 * U32 ^ as.length by ring]
        generalize U32 ^ as.length = W at hval ⊢
        rcases Nat.le_one_iff_eq_zero_or_eq_one.mp hbo with rfl | rfl <;>
          · rw [U32_eq]
            omega
      · intro x hx
        simp only [if_pos hc, List.mem_cons] at hx
        rcases hx with rfl | hx
        · rw [hdig, U32_eq]; omega
        · exact hbnd x hx
      · simp [if_pos hc, hln]
    · obtain ⟨bo, hbo, hval, hbnd, hln⟩ :=
        sub_borrow_aux_exact as bs 1 hlen' ha' hb' (by omega) hble'
      have hdig : u32add (u32add (u32sub (u32sub 4294967295 bi) brw) 1) ai
          = ai + 4294967296 - bi - brw := by
        simp only [u32add, u32sub, U32_eq]; omega
      refine ⟨bo, hbo, ?_, ?_, ?_⟩
      · simp only [if_neg hc, limbsVal, hdig, List.length_cons, pow_succ]
        rw [show U32 ^ as.length * U32 = U32 * U32 ^ as.length by ring]
        generalize U32 ^ as.length = W at hval ⊢
        rcases Nat.le_one_iff_eq_zero_or_eq_one.mp hbo with rfl | rfl <;>
          · rw [U32_eq]
            omega
      · intro x hx
        simp only [if_neg hc, List.mem_cons] at hx
        rcases hx with rfl | hx
        · rw [hdig, U32_eq]; omega
        · exact hbnd x hx
      · simp [if_neg hc, hln]

/-- Conditional correctness of `sub_no_borrow_256`: exact on `a ≥ b` as long
as no limb of `b` is `0xFFFFFFFF` (which is the case for the Pallas prime).
With such a limb and an incoming borrow, `bi + borrow` wraps to `0` in the
comparison and the borrow is silently dropped. -/
theorem sub_no_borrow_256_exact (a b : List ℕ) (hlen : a.length = b.length)
    (ha : limbsBounded a) (hb : limbsBounded b)
    (hble : ∀ x ∈ b, x < 4294967295) (hge : limbsVal b ≤ limbsVal a) :
    limbsVal (sub_no_borrow_256 a b) = limbsVal a - limbsVal b ∧
    limbsBounded (sub_no_borrow_256 a b) ∧
    (sub_no_borrow_256 a b).length = a.length := by
  obtain ⟨bo, hbo, hval, hbnd, hln⟩ :=
    sub_borrow_aux_exact a b 0 hlen ha hb (by omega) hble
  have hres_lt : limbsVal (sub_borrow_aux a b 0) < U32 ^ a.length := by
    rw [← hln]; exact limbsVal_lt _ hbnd
  have hbo0 : bo = 0 := by
    rcases Nat.le_one_iff_eq_zero_or_eq_one.mp hbo with h | h
    · exact h
    · exfalso; rw [h, one_mul] at hval; omega
  rw [hbo0] at hval
  refine ⟨by unfold sub_no_borrow_256; omega, hbnd, hln⟩

/-!
## Montgomery reduction and multiplication

The inner loops of `montgomery_reduce_256` and `mont_mul_256` are shared
between the helpers.ts/arithmetic fragment (using `mul_add_carry`) and the
standalone shader `unnamed/part_000` (using its unshifted variant), so the
loop skeletons below take the multiply-accumulate primitive `mac` as a
parameter and each source function instantiates it.
-/

/-- Pallas prime `p`, little-endian limbs (curve.wgsl `PALLAS_P`). -/
def PALLAS_P : List ℕ :=
  [0x00000001, 0x992d30ed, 0x094cf91b, 0x224698fc, 0, 0, 0, 0x40000000]

/-- Pallas `-p⁻¹ mod 2^32` (curve.wgsl `PALLAS_MONT_INV32`). -/
def PALLAS_MONT_INV32 : ℕ := 0xffffffff

/-- Pallas `R² mod p` as baked in curve.wgsl lines 52–55. -/
def PALLAS_R2 : List ℕ :=
  [0x0000000F, 0x8C78ECB3, 0x8B0DE0E7, 0xD7D30DBD,
   0xC3C95D18, 0x7797A99B, 0x7B9CB714, 0x096D41AF]

/-- The other `PALLAS_R2` constant baked in curve.wgsl lines 14–17 (also
`MONTGOMERY_R2` of `unnamed/part_000`). -/
def PALLAS_R2_alt : List ℕ :=
  [0x8c46eb20, 0x748d9d99, 0x7523e5ce, 0x1a5f79f5, 0xffd8ddee, 0, 0, 0]

/-- Pallas `p − 2` (curve.wgsl `PALLAS_P_MINUS_2`). -/
def PALLAS_P_MINUS_2 : List ℕ :=
  [0xFFFFFFFF, 0x992D30EC, 0x094CF91B, 0x224698FC, 0, 0, 0, 0x40000000]

/-- `R⁻¹ mod p` for `R = 2^256` and the Pallas prime (specification
constant; `PALLAS_RINV_spec` below checks it against `R`). -/
def PALLAS_RINV : ℕ :=
  0x21f1c4ff1e2278d570cb2996efc89a65ac9fba6a4077fc57cf3f8e8753a769a9

theorem PALLAS_RINV_spec :
    2 ^ 256 * PALLAS_RINV % limbsVal PALLAS_P = 1 := by decide

/-- Shared inner loop: starting at the head of `ts`, apply
`ts[j] = mac(m, qs[j], ts[j], &carry)` for each limb of `qs`, leave the rest
of `ts` untouched, and return the final carry.  (In the source the loop
writes `t[i + j]`; here the offset `i` is the number of limbs already peeled
off `ts` by the caller.) -/
def mulAddRow (mac : ℕ → ℕ → ℕ → ℕ → ℕ × ℕ) (m : ℕ) :
    List ℕ → List ℕ → ℕ → List ℕ × ℕ
  | [], ts, c => (ts, c)
  | _ :: _, [], c => ([], c)
  | q :: qs, ti :: ts, c =>
    match mac m q ti c with
    | (r, c1) =>
      match mulAddRow mac m qs ts c1 with
      | (rest, cout) => (r :: rest, cout)

/-- Carry-propagation loop of the reduction (`k = i + 8; while k < 16 &&
carry != 0`): ripple `c` from the head; a carry surviving past the end of
the list falls off (the `k >= 16` guard). -/
def propagateCarry : List ℕ → ℕ → List ℕ
  | [], _ => []
  | t :: ts, c =>
    if c = 0 then t :: ts
    else
      let s := (t + c) % U32
      s :: propagateCarry ts (if s < t then 1 else 0)

/-- Add `c` into the list starting at position `n`, rippling from there
(the reduction starts its ripple at `k = i + 8`). -/
def addCarryAt : List ℕ → ℕ → ℕ → List ℕ
  | [], _, _ => []
  | x :: xs, 0, c => propagateCarry (x :: xs) c
  | x :: xs, n + 1, c => x :: addCarryAt xs n c

/-- One round of the reduction loop of `fn montgomery_reduce_256`
(helpers.ts bundle, lines 161–198), at offset 0 of the current frame:
`m = temp[i] * mont_inv32` (u32 wrapping), add `m·p` at the frame head,
then ripple the final carry from frame position 8. -/
def montRound (mac : ℕ → ℕ → ℕ → ℕ → ℕ × ℕ) (pl : List ℕ) (mi : ℕ)
    (t : List ℕ) : List ℕ :=
  let m := (t.headI * mi) % U32
  match mulAddRow mac m pl t 0 with
  | (row, c) => addCarryAt row 8 c

/-- The 8 rounds of the reduction loop.  Round `i` of the source operates
on `temp[i..]`, which is the current list after `i` limbs have been peeled
off and reattached. -/
def montLoop (mac : ℕ → ℕ → ℕ → ℕ → ℕ × ℕ) (pl : List ℕ) (mi : ℕ) :
    ℕ → List ℕ → List ℕ
  | 0, t => t
  | fuel + 1, t =>
    match montRound mac pl mi t with
    | [] => []
    | r0 :: rest => r0 :: montLoop mac pl mi fuel rest

/-- Shared body of Montgomery reduction: 8 rounds, extract the upper 8
limbs (`result[i] = temp[i + 8]`), one conditional subtraction of `p`. -/
def montgomery_reduce_core (mac : ℕ → ℕ → ℕ → ℕ → ℕ × ℕ)
    (t : List ℕ) (mi : ℕ) (pl : List ℕ) : List ℕ :=
  let temp := montLoop mac pl mi 8 t
  let result := (temp.drop 8).take 8
  if gte_256 result pl then sub_no_borrow_256 result pl else result

/-- Source: `fn montgomery_reduce_256` (helpers.ts bundle, lines 161–198). -/
def montgomery_reduce_256 (t : List ℕ) (mi : ℕ) (pl : List ℕ) : List ℕ :=
  montgomery_reduce_core mul_add_carry t mi pl

/-- Row `i` of the schoolbook product in `fn mont_mul_256` at offset 0 of
the current frame: update frame positions 0–7 with `mac`, then overwrite
frame position 8 (`product[i + 8] = carry`). -/
def mulRow (mac : ℕ → ℕ → ℕ → ℕ → ℕ × ℕ) (ai : ℕ) (bl t : List ℕ) :
    List ℕ :=
  match mulAddRow mac ai bl t 0 with
  | (row, c) => row.set 8 c

/-- The 8 rows of the schoolbook product, one per limb of `al`; row `i`
operates on `product[i..]`, the current list after `i` peels. -/
def mulLoop (mac : ℕ → ℕ → ℕ → ℕ → ℕ × ℕ) (bl : List ℕ) :
    List ℕ → List ℕ → List ℕ
  | [], t => t
  | ai :: as, t =>
    match mulRow mac ai bl t with
    | [] => []
    | r0 :: rest => r0 :: mulLoop mac bl as rest

/-- Shared body of Montgomery multiplication: 512-bit schoolbook product of
`a` and `b` into a zero-initialized 16-limb accumulator, then Montgomery
reduction. -/
def mont_mul_core (mac : ℕ → ℕ → ℕ → ℕ → ℕ × ℕ)
    (a b : List ℕ) (mi : ℕ) (pl : List ℕ) : List ℕ :=
  montgomery_reduce_core mac (mulLoop mac b a (List.replicate 16 0)) mi pl

/-- Source: `fn mont_mul_256` (helpers.ts bundle, lines 204–220). -/
def mont_mul_256 (a b : List ℕ) (mi : ℕ) (pl : List ℕ) : List ℕ :=
  mont_mul_core mul_add_carry a b mi pl

/-- The 8-limb representation of 1 (as built in `from_montgomery_256` and
`mod_inverse_mont_256`). -/
def one8 : List ℕ := [1, 0, 0, 0, 0, 0, 0, 0]

/-- Source: `fn to_montgomery_256` (helpers.ts bundle, lines 225–227). -/
def to_montgomery_256 (a r2 : List ℕ) (mi : ℕ) (pl : List ℕ) : List ℕ :=
  mont_mul_256 a r2 mi pl

/-- Source: `fn from_montgomery_256` (helpers.ts bundle, lines 233–236). -/
def from_montgomery_256 (a : List ℕ) (mi : ℕ) (pl : List ℕ) : List ℕ :=
  mont_mul_256 a one8 mi pl

theorem mulAddRow_cons (mac : ℕ → ℕ → ℕ → ℕ → ℕ × ℕ) (m q ti c : ℕ)
    (qs ts : List ℕ) :
    mulAddRow mac m (q :: qs) (ti :: ts) c
      = ((mac m q ti c).1 :: (mulAddRow mac m qs ts (mac m q ti c).2).1,
         (mulAddRow mac m qs ts (mac m q ti c).2).2) := by
  rcases h : mac m q ti c with ⟨r, c1⟩
  rcases h2 : mulAddRow mac m qs ts c1 with ⟨rest, cout⟩
  simp [mulAddRow, h, h2]

theorem mulAddRow_exact (m : ℕ) (hm : m < U32) : ∀ (qs ts : List ℕ) (c : ℕ),
    qs.length ≤ ts.length → limbsBounded qs → limbsBounded ts → c < U32 →
    limbsVal (mulAddRow mul_add_carry m qs ts c).1
        + U32 ^ qs.length * (mulAddRow mul_add_carry m qs ts c).2
      = limbsVal ts + m * limbsVal qs + c ∧
    limbsBounded (mulAddRow mul_add_carry m qs ts c).1 ∧
    (mulAddRow mul_add_carry m qs ts c).2 < U32 ∧
    (mulAddRow mul_add_carry m qs ts c).1.length = ts.length
  | [], ts, c, _, _, hts, hc => by
    simp only [mulAddRow]
    exact ⟨by simp [limbsVal], hts, hc, by simp⟩
  | q :: qs, [], c, hlen, _, _, _ => by simp at hlen
  | q :: qs, ti :: ts, c, hlen, hqs, hts, hc => by
    have hq : q < U32 := hqs q (by simp)
    have hti : ti < U32 := hts ti (by simp)
    have hqs' : limbsBounded qs := fun x hx => hqs x (by simp [hx])
    have hts' : limbsBounded ts := fun x hx => hts x (by simp [hx])
    have hlen' : qs.length ≤ ts.length := by simpa using hlen
    obtain ⟨hmac, hr, hc1⟩ := mul_add_carry_exact m q ti c hm hq hti hc
    obtain ⟨ih, ihb, ihc, ihl⟩ :=
      mulAddRow_exact m hm qs ts (mul_add_carry m q ti c).2 hlen' hqs' hts' hc1
    rw [mulAddRow_cons]
    refine ⟨?_, ?_, ihc, by simp [ihl]⟩
    · simp only [limbsVal, List.length_cons]
      zify at ih hmac ⊢
      linear_combination (U32 : ℤ) * ih + hmac
    · intro x hx
      rcases List.mem_cons.mp hx with rfl | hx
      · exact hr
      · exact ihb x hx

theorem propagateCarry_exact : ∀ (ts : List ℕ) (c : ℕ),
    limbsBounded ts → c < U32 →
    ∃ d, limbsVal (propagateCarry ts c) + U32 ^ ts.length * d
        = limbsVal ts + c ∧
      limbsBounded (propagateCarry ts c) ∧
      (propagateCarry ts c).length = ts.length
  | [], c, _, _ =>
    ⟨c, by simp [propagateCarry, limbsVal],
      fun x hx => by simp [propagateCarry] at hx, rfl⟩
  | t :: ts, c, hts, hc => by
    have ht : t < U32 := hts t (by simp)
    have hts' : limbsBounded ts := fun x hx => hts x (by simp [hx])
    by_cases hc0 : c = 0
    · subst hc0
      exact ⟨0, by simp [propagateCarry], by simpa [propagateCarry] using hts,
        by simp [propagateCarry]⟩
    · have hcnew : (if (t + c) % U32 < t then 1 else 0) < U32 := by
        rw [U32_eq]; split_ifs <;> omega
      obtain ⟨d, ih, ihb, ihl⟩ :=
        propagateCarry_exact ts (if (t + c) % U32 < t then 1 else 0) hts' hcnew
      refine ⟨d, ?_, ?_, ?_⟩
      · have hs : (t + c) % U32 + U32 * (if (t + c) % U32 < t then 1 else 0)
            = t + c := by
          rw [U32_eq] at ht hc ⊢; split_ifs <;> omega
        simp only [propagateCarry, if_neg hc0, limbsVal, List.length_cons]
        zify at ih hs ⊢
        linear_combination (U32 : ℤ) * ih + hs
      · intro x hx
        simp only [propagateCarry, if_neg hc0, List.mem_cons] at hx
        rcases hx with rfl | hx
        · rw [U32_eq]; omega
        · exact ihb x hx
      · simp [propagateCarry, if_neg hc0, ihl]

theorem addCarryAt_exact : ∀ (ts : List ℕ) (n c : ℕ),
    limbsBounded ts → c < U32 →
    ∃ d, limbsVal (addCarryAt ts n c) + U32 ^ ts.length * d
        = limbsVal ts + c * U32 ^ n ∧
      limbsBounded (addCarryAt ts n c) ∧
      (addCarryAt ts n c).length = ts.length
  | [], n, c, _, _ =>
    ⟨c * U32 ^ n, by simp [addCarryAt, limbsVal],
      fun x hx => by simp [addCarryAt] at hx, rfl⟩
  | x :: xs, 0, c, hts, hc => by
    obtain ⟨d, h, hb, hl⟩ := propagateCarry_exact (x :: xs) c hts hc
    exact ⟨d, by simpa [addCarryAt] using h, by simpa [addCarryAt] using hb,
      by simpa [addCarryAt] using hl⟩
  | x :: xs, n + 1, c, hts, hc => by
    have hx : x < U32 := hts x (by simp)
    have hts' : limbsBounded xs := fun y hy => hts y (by simp [hy])
    obtain ⟨d, ih, ihb, ihl⟩ := addCarryAt_exact xs n c hts' hc
    refine ⟨d, ?_, ?_, by simp [addCarryAt, ihl]⟩
    · simp only [addCarryAt, limbsVal, List.length_cons]
      zify at ih ⊢
      linear_combination (U32 : ℤ) * ih
    · intro y hy
      simp only [addCarryAt, List.mem_cons] at hy
      rcases hy with rfl | hy
      · exact hx
      · exact ihb y hy

theorem limbsVal_set : ∀ (l : List ℕ) (n v : ℕ), n < l.length → v < U32 →
    limbsBounded l →
    limbsVal (l.set n v) + l.getD n 0 * U32 ^ n = limbsVal l + v * U32 ^ n ∧
    limbsBounded (l.set n v) ∧ (l.set n v).length = l.length
  | [], n, v, hn, _, _ => by simp at hn
  | x :: xs, 0, v, _, hv, hb => by
    refine ⟨by simp [limbsVal]; ring, ?_, by simp⟩
    intro y hy
    simp only [List.set, List.mem_cons] at hy
    rcases hy with rfl | hy
    · exact hv
    · exact hb y (by simp [hy])
  | x :: xs, n + 1, v, hn, hv, hb => by
    have hn' : n < xs.length := by simpa using hn
    have hb' : limbsBounded xs := fun y hy => hb y (by simp [hy])
    obtain ⟨ih, ihb, ihl⟩ := limbsVal_set xs n v hn' hv hb'
    refine ⟨?_, ?_, by simp [ihl]⟩
    · simp only [List.set, limbsVal, List.getD_cons_succ, List.length_cons]
      zify at ih ⊢
      linear_combination (U32 : ℤ) * ih
    · intro y hy
      simp only [List.set, List.mem_cons] at hy
      rcases hy with rfl | hy
      · exact hb _ (by simp)
      · exact ihb y hy

theorem limbsVal_take_drop (n : ℕ) : ∀ (l : List ℕ),
    limbsVal l = limbsVal (l.take n) + U32 ^ n * limbsVal (l.drop n) := by
  induction n with
  | zero => intro l; simp [limbsVal]
  | succ n ih =>
    intro l
    cases l with
    | nil => simp [limbsVal]
    | cons x xs =>
      simp only [List.take_succ_cons, List.drop_succ_cons, limbsVal, ih xs,
        pow_succ]
      ring

theorem limbsVal_replicate_zero (n : ℕ) :
    limbsVal (List.replicate n 0) = 0 := by
  induction n with
  | zero => simp [limbsVal]
  | succ n ih => simp [List.replicate_succ, limbsVal, ih]

theorem montRound_unfold (mac : ℕ → ℕ → ℕ → ℕ → ℕ × ℕ) (pl : List ℕ)
    (mi : ℕ) (t : List ℕ) :
    montRound mac pl mi t
      = addCarryAt (mulAddRow mac (t.headI * mi % U32) pl t 0).1 8
          (mulAddRow mac (t.headI * mi % U32) pl t 0).2 := by
  rcases h : mulAddRow mac (t.headI * mi % U32) pl t 0 with ⟨row, c⟩
  simp [montRound, h]

theorem montRound_exact (t : List ℕ) (ht : limbsBounded t) (hlen : 8 ≤ t.length) :
    ∃ d, limbsVal (montRound mul_add_carry PALLAS_P PALLAS_MONT_INV32 t)
          + U32 ^ t.length * d
        = limbsVal t + t.headI * PALLAS_MONT_INV32 % U32 * limbsVal PALLAS_P ∧
      limbsBounded (montRound mul_add_carry PALLAS_P PALLAS_MONT_INV32 t) ∧
      (montRound mul_add_carry PALLAS_P PALLAS_MONT_INV32 t).length = t.length := by
  have hm : t.headI * PALLAS_MONT_INV32 % U32 < U32 :=
    Nat.mod_lt _ (by rw [U32_eq]; omega)
  have hPlen : PALLAS_P.length = 8 := by decide
  have hPbnd : limbsBounded PALLAS_P := show ∀ x ∈ PALLAS_P, x < U32 by decide
  obtain ⟨hrow, hrowb, hrowc, hrowl⟩ :=
    mulAddRow_exact (t.headI * PALLAS_MONT_INV32 % U32) hm PALLAS_P t 0
      (by omega) hPbnd ht (by rw [U32_eq]; omega)
  obtain ⟨d, hadd, haddb, haddl⟩ :=
    addCarryAt_exact (mulAddRow mul_add_carry (t.headI * PALLAS_MONT_INV32 % U32)
        PALLAS_P t 0).1 8
      (mulAddRow mul_add_carry (t.headI * PALLAS_MONT_INV32 % U32) PALLAS_P t 0).2
      hrowb hrowc
  rw [montRound_unfold]
  rw [hPlen] at hrow
  rw [hrowl] at hadd haddl
  refine ⟨d, ?_, haddb, haddl⟩
  zify at hrow hadd ⊢
  linear_combination hadd + hrow

theorem montRound_head_zero (t : List ℕ) (ht : limbsBounded t)
    (hlen : 8 ≤ t.length) :
    ∃ rest, montRound mul_add_carry PALLAS_P PALLAS_MONT_INV32 t = 0 :: rest := by
  cases t with
  | nil => simp at hlen
  | cons t0 ts =>
    have ht0 : t0 < U32 := ht t0 (by simp)
    have hm : t0 * PALLAS_MONT_INV32 % U32 < U32 :=
      Nat.mod_lt _ (by rw [U32_eq]; omega)
    obtain ⟨hmac, hr, hc1⟩ :=
      mul_add_carry_exact (t0 * PALLAS_MONT_INV32 % U32) 1 t0 0 hm
        (by rw [U32_eq]; omega) ht0 (by rw [U32_eq]; omega)
    have hr0 : (mul_add_carry (t0 * PALLAS_MONT_INV32 % U32) 1 t0 0).1 = 0 := by
      have hmod : (t0 * PALLAS_MONT_INV32 % U32 + t0) % U32 = 0 := by
        simp only [PALLAS_MONT_INV32, U32_eq]
        omega
      rw [U32_eq] at hmac hr hc1 hmod ⊢
      omega
    rw [montRound_unfold]
    have hP : PALLAS_P
        = 1 :: [0x992d30ed, 0x094cf91b, 0x224698fc, 0, 0, 0, 0x40000000] := rfl
    rw [hP]
    rw [show (t0 :: ts).headI = t0 from rfl]
    rw [mulAddRow_cons]
    rw [hr0]
    exact ⟨_, rfl⟩

theorem montLoop_exact : ∀ (fuel : ℕ) (t : List ℕ),
    limbsBounded t → 7 + fuel ≤ t.length →
    limbsVal t + limbsVal PALLAS_P * (2 * U32 ^ fuel - 1) ≤ U32 ^ t.length →
    ∃ M < U32 ^ fuel,
      limbsVal (montLoop mul_add_carry PALLAS_P PALLAS_MONT_INV32 fuel t)
        = limbsVal t + M * limbsVal PALLAS_P ∧
      limbsBounded (montLoop mul_add_carry PALLAS_P PALLAS_MONT_INV32 fuel t) ∧
      (montLoop mul_add_carry PALLAS_P PALLAS_MONT_INV32 fuel t).length
        = t.length ∧
      (montLoop mul_add_carry PALLAS_P PALLAS_MONT_INV32 fuel t).take fuel
        = List.replicate fuel 0
  | 0, t, ht, _, _ =>
    ⟨0, by simp, by simp [montLoop], by simpa [montLoop] using ht,
      by simp [montLoop], by simp [montLoop]⟩
  | fuel + 1, t, ht, hlen, hbound => by
    have hPval : limbsVal PALLAS_P
        = 28948022309329048855892746252171976963363056481941560715954676764349967630337 := by
      decide
    have h8 : 8 ≤ t.length := by omega
    obtain ⟨rest, hrest⟩ := montRound_head_zero t ht h8
    obtain ⟨d, hd, hrb, hrl⟩ := montRound_exact t ht h8
    have hm : t.headI * PALLAS_MONT_INV32 % U32 < U32 :=
      Nat.mod_lt _ (by rw [U32_eq]; omega)
    rw [pow_succ] at hbound
    have hWpos0 : 0 < U32 ^ fuel := Nat.pos_pow_of_pos _ (by rw [U32_eq]; omega)
    have hd0 : d = 0 := by
      by_contra hne
      have hdle : U32 ^ t.length ≤ U32 ^ t.length * d :=
        Nat.le_mul_of_pos_right _ (by omega)
      generalize hW : U32 ^ fuel = W at hbound hWpos0
      generalize hV : U32 ^ t.length = V at hd hdle hbound
      rw [hPval] at hbound hd
      rw [U32_eq] at hbound hd hm
      omega
    rw [hd0, mul_zero, add_zero] at hd
    have hUrest : U32 * limbsVal rest
        = limbsVal t + t.headI * PALLAS_MONT_INV32 % U32 * limbsVal PALLAS_P := by
      rw [hrest] at hd
      simpa [limbsVal] using hd
    have hrb' : limbsBounded rest := by
      rw [hrest] at hrb
      exact fun x hx => hrb x (by simp [hx])
    have hrl' : rest.length + 1 = t.length := by
      rw [hrest] at hrl
      simpa using hrl
    have hWpos : 0 < U32 ^ fuel := Nat.pos_pow_of_pos _ (by rw [U32_eq]; omega)
    have hbound' : limbsVal rest + limbsVal PALLAS_P * (2 * U32 ^ fuel - 1)
        ≤ U32 ^ rest.length := by
      have hpow : U32 ^ t.length = U32 * U32 ^ rest.length := by
        rw [← hrl', pow_succ]; ring
      have key : U32 * (limbsVal rest + limbsVal PALLAS_P * (2 * U32 ^ fuel - 1))
          ≤ U32 * U32 ^ rest.length := by
        rw [← hpow]
        generalize hW : U32 ^ fuel = W at hbound hWpos
        generalize hV : U32 ^ t.length = V at hbound
        rw [hPval] at hbound hUrest ⊢
        rw [U32_eq] at hbound hUrest hm ⊢
        omega
      exact Nat.le_of_mul_le_mul_left key (by rw [U32_eq]; omega)
    obtain ⟨M, hMlt, ihval, ihb, ihl, ihtake⟩ :=
      montLoop_exact fuel rest hrb' (by omega) hbound'
    have hunf : montLoop mul_add_carry PALLAS_P PALLAS_MONT_INV32 (fuel + 1) t
        = 0 :: montLoop mul_add_carry PALLAS_P PALLAS_MONT_INV32 fuel rest := by
      simp only [montLoop, hrest]
    refine ⟨t.headI * PALLAS_MONT_INV32 % U32 + U32 * M, ?_, ?_, ?_, ?_, ?_⟩
    · rw [pow_succ]
      generalize hW : U32 ^ fuel = W at hMlt hWpos
      rw [U32_eq] at hm ⊢
      omega
    · rw [hunf]
      simp only [limbsVal]
      rw [ihval]
      generalize limbsVal rest = vr at hUrest ⊢
      rw [hPval] at hUrest ⊢
      rw [U32_eq] at hUrest ⊢
      omega
    · rw [hunf]
      intro x hx
      rcases List.mem_cons.mp hx with rfl | hx
      · rw [U32_eq]; omega
      · exact ihb x hx
    · rw [hunf]
      simp [ihl, ← hrl']
    · rw [hunf]
      simp [List.replicate_succ, ihtake]


theorem limbsVal_take_succ (l : List ℕ) (i : ℕ) :
    limbsVal (l.take (i + 1)) = limbsVal (l.take i) + l.getD i 0 * U32 ^ i := by
  induction l generalizing i with
  | nil => simp [limbsVal]
  | cons x xs ih =>
    cases i with
    | zero => simp [limbsVal]
    | succ j =>
      simp only [List.take_succ_cons, limbsVal, List.getD_cons_succ]
      rw [ih j]
      ring

theorem limbsVal_take_lt (l : List ℕ) (h : limbsBounded l) (n : ℕ) :
    limbsVal (l.take n) < U32 ^ n := by
  have hb : limbsBounded (l.take n) := fun x hx => h x (List.take_subset n l hx)
  have h1 := limbsVal_lt (l.take n) hb
  have h2 : (l.take n).length ≤ n := by simp
  calc limbsVal (l.take n) < U32 ^ (l.take n).length := h1
  _ ≤ U32 ^ n := Nat.pow_le_pow_right (by rw [U32_eq]; omega) h2

theorem gte_aux_spec (a b : List ℕ) (ha : limbsBounded a) (hb : limbsBounded b)
    (i : ℕ) :
    gte_aux a b i = true ↔ limbsVal (b.take (i + 1)) ≤ limbsVal (a.take (i + 1)) := by
  induction i with
  | zero =>
    have hva : limbsVal (a.take 1) = a.getD 0 0 := by
      cases a <;> simp [limbsVal]
    have hvb : limbsVal (b.take 1) = b.getD 0 0 := by
      cases b <;> simp [limbsVal]
    simp [gte_aux, hva, hvb]
  | succ j ihj =>
    have hA := limbsVal_take_lt a ha (j + 1)
    have hB := limbsVal_take_lt b hb (j + 1)
    rw [limbsVal_take_succ a (j + 1), limbsVal_take_succ b (j + 1)]
    generalize hW : U32 ^ (j + 1) = W at hA hB ⊢
    set A := limbsVal (a.take (j + 1)) with hAdef
    set B := limbsVal (b.take (j + 1)) with hBdef
    set ah := a.getD (j + 1) 0 with hahdef
    set bh := b.getD (j + 1) 0 with hbhdef
    rcases lt_trichotomy bh ah with hlt | heq | hgt
    · have key : B + bh * W ≤ A + ah * W := by
        have h1 : B + bh * W < W + bh * W := by omega
        have h2 : W + bh * W = (bh + 1) * W := by ring
        have h3 : (bh + 1) * W ≤ ah * W :=
          Nat.mul_le_mul_right W (by omega)
        omega
      simp only [gte_aux, if_pos hlt]
      simp [key]
    · have hcond1 : ¬ bh < ah := by omega
      have hcond2 : ¬ ah < bh := by omega
      simp only [gte_aux, if_neg hcond1, if_neg hcond2]
      rw [ihj, heq]
      constructor <;> intro h <;> omega
    · have key : A + ah * W < B + bh * W := by
        have h1 : A + ah * W < W + ah * W := by omega
        have h2 : W + ah * W = (ah + 1) * W := by ring
        have h3 : (ah + 1) * W ≤ bh * W :=
          Nat.mul_le_mul_right W (by omega)
        omega
      have hcond1 : ¬ bh < ah := by omega
      simp only [gte_aux, if_neg hcond1, if_pos hgt]
      simp
      omega

theorem gte_256_spec (a b : List ℕ) (ha : limbsBounded a) (hb : limbsBounded b)
    (hla : a.length = 8) (hlb : b.length = 8) :
    gte_256 a b = true ↔ limbsVal b ≤ limbsVal a := by
  have := gte_aux_spec a b ha hb 7
  rwa [List.take_of_length_le (by omega), List.take_of_length_le (by omega)] at this

/-- Contract of `montgomery_reduce_256` on its intended domain: for inputs
`T < p·R` the result is `T·R⁻¹ mod p`, lies in `[0, p)`, and is a bounded
8-limb value. -/
theorem montgomery_reduce_256_spec (t : List ℕ)
    (ht : limbsBounded t) (hl : t.length = 16)
    (hT : limbsVal t < limbsVal PALLAS_P * 2 ^ 256) :
    limbsVal (montgomery_reduce_256 t PALLAS_MONT_INV32 PALLAS_P)
      = limbsVal t * PALLAS_RINV % limbsVal PALLAS_P ∧
    limbsVal (montgomery_reduce_256 t PALLAS_MONT_INV32 PALLAS_P)
      < limbsVal PALLAS_P ∧
    limbsBounded (montgomery_reduce_256 t PALLAS_MONT_INV32 PALLAS_P) ∧
    (montgomery_reduce_256 t PALLAS_MONT_INV32 PALLAS_P).length = 8 := by
  have hPval : limbsVal PALLAS_P
      = 28948022309329048855892746252171976963363056481941560715954676764349967630337 := by
    decide
  have h8 : U32 ^ 8 = 2 ^ 256 := by norm_num [U32_eq]
  have h16 : U32 ^ 16 = 2 ^ 512 := by norm_num [U32_eq]
  have hbound : limbsVal t + limbsVal PALLAS_P * (2 * U32 ^ 8 - 1)
      ≤ U32 ^ t.length := by
    rw [hl, h16]
    rw [hPval] at hT ⊢
    rw [h8]
    omega
  obtain ⟨M, hM, hval, hb2, hl2, htake⟩ :=
    montLoop_exact 8 t ht (by omega) hbound
  set temp := montLoop mul_add_carry PALLAS_P PALLAS_MONT_INV32 8 t with htemp
  have hdlen : (temp.drop 8).length = 8 := by simp [hl2, hl]
  have htk8 : (temp.drop 8).take 8 = temp.drop 8 :=
    List.take_of_length_le (by omega)
  have hsplit := limbsVal_take_drop 8 temp
  rw [htake, limbsVal_replicate_zero] at hsplit
  have hkey : U32 ^ 8 * limbsVal (temp.drop 8)
      = limbsVal t + M * limbsVal PALLAS_P := by
    rw [← hval, hsplit]; ring
  have hub : limbsBounded (temp.drop 8) :=
    fun x hx => hb2 x (List.drop_subset 8 temp hx)
  have hPb : limbsBounded PALLAS_P := by
    intro x hx; rw [U32_eq]; revert x hx
    decide
  have hPlimb : ∀ x ∈ PALLAS_P, x < 4294967295 := by decide
  have hPlen : PALLAS_P.length = 8 := by decide
  have hMlt : M < 2 ^ 256 := by rw [h8] at hM; exact hM
  have hMP : M * limbsVal PALLAS_P ≤ 2 ^ 256 * limbsVal PALLAS_P :=
    Nat.mul_le_mul_right _ (by omega)
  have hu2p : limbsVal (temp.drop 8) < 2 * limbsVal PALLAS_P := by
    have h1 : U32 ^ 8 * limbsVal (temp.drop 8)
        < U32 ^ 8 * (2 * limbsVal PALLAS_P) := by
      rw [hkey, h8]
      calc limbsVal t + M * limbsVal PALLAS_P
          < limbsVal PALLAS_P * 2 ^ 256 + 2 ^ 256 * limbsVal PALLAS_P :=
            add_lt_add_of_lt_of_le hT hMP
      _ = 2 ^ 256 * (2 * limbsVal PALLAS_P) := by ring
    exact Nat.lt_of_mul_lt_mul_left h1
  have hmod : limbsVal (temp.drop 8) % limbsVal PALLAS_P
      = limbsVal t * PALLAS_RINV % limbsVal PALLAS_P := by
    have h1 : (2 ^ 256 * PALLAS_RINV) % limbsVal PALLAS_P
        = 1 % limbsVal PALLAS_P := by
      rw [PALLAS_RINV_spec, Nat.mod_eq_of_lt (by rw [hPval]; omega)]
    have e1 : limbsVal (temp.drop 8)
        ≡ limbsVal (temp.drop 8) * (2 ^ 256 * PALLAS_RINV)
          [MOD limbsVal PALLAS_P] := by
      calc limbsVal (temp.drop 8) = limbsVal (temp.drop 8) * 1 := by ring
      _ ≡ limbsVal (temp.drop 8) * (2 ^ 256 * PALLAS_RINV)
          [MOD limbsVal PALLAS_P] :=
        Nat.ModEq.mul_left _ (Nat.ModEq.symm h1)
    have e2 : limbsVal (temp.drop 8) * (2 ^ 256 * PALLAS_RINV)
        = (limbsVal t + M * limbsVal PALLAS_P) * PALLAS_RINV := by
      rw [← hkey, h8]; ring
    have e3 : (limbsVal t + M * limbsVal PALLAS_P) * PALLAS_RINV
        ≡ limbsVal t * PALLAS_RINV [MOD limbsVal PALLAS_P] := by
      have e3' : (limbsVal t + M * limbsVal PALLAS_P) % limbsVal PALLAS_P
          = limbsVal t % limbsVal PALLAS_P := Nat.add_mul_mod_self_right _ _ _
      exact Nat.ModEq.mul_right _ e3'
    rw [e2] at e1
    exact e1.trans e3
  have hunf : montgomery_reduce_256 t PALLAS_MONT_INV32 PALLAS_P
      = if gte_256 ((temp.drop 8).take 8) PALLAS_P
        then sub_no_borrow_256 ((temp.drop 8).take 8) PALLAS_P
        else (temp.drop 8).take 8 := rfl
  rw [htk8] at hunf
  by_cases hg : limbsVal PALLAS_P ≤ limbsVal (temp.drop 8)
  · have hgte : gte_256 (temp.drop 8) PALLAS_P = true :=
      (gte_256_spec _ _ hub hPb hdlen hPlen).mpr hg
    obtain ⟨hsval, hsb, hsl⟩ :=
      sub_no_borrow_256_exact (temp.drop 8) PALLAS_P (by omega) hub hPb hPlimb hg
    rw [hunf, if_pos hgte]
    have humod : limbsVal (temp.drop 8) % limbsVal PALLAS_P
        = limbsVal (temp.drop 8) - limbsVal PALLAS_P := by
      rw [Nat.mod_eq_sub_mod hg, Nat.mod_eq_of_lt (by omega)]
    refine ⟨?_, ?_, hsb, by omega⟩
    · rw [hsval, ← humod, hmod]
    · rw [hsval]; omega
  · push_neg at hg
    have hgte : gte_256 (temp.drop 8) PALLAS_P = false := by
      rw [← Bool.not_eq_true]
      intro hcon
      exact absurd ((gte_256_spec _ _ hub hPb hdlen hPlen).mp hcon) (by omega)
    rw [hunf, if_neg (by simp [hgte])]
    exact ⟨by rw [← hmod, Nat.mod_eq_of_lt hg], hg, hub, hdlen⟩

theorem getD_headI_drop : ∀ (l : List ℕ) (n : ℕ), l.getD n 0 = (l.drop n).headI
  | [], n => by cases n <;> simp
  | x :: xs, 0 => by simp
  | x :: xs, n + 1 => by simpa using getD_headI_drop xs n

theorem drop_set_of_lt : ∀ (l : List ℕ) (n v m : ℕ), n < m →
    (l.set n v).drop m = l.drop m
  | [], _, _, _, _ => by simp
  | _ :: _, _, _, 0, h => absurd h (Nat.not_lt_zero _)
  | x :: xs, 0, v, m + 1, _ => by simp
  | x :: xs, n + 1, v, m + 1, h => by
    simp only [List.set, List.drop_succ_cons]
    exact drop_set_of_lt xs n v m (by omega)

theorem mulAddRow_drop (mac : ℕ → ℕ → ℕ → ℕ → ℕ × ℕ) (m : ℕ) :
    ∀ (qs ts : List ℕ) (c : ℕ),
      (mulAddRow mac m qs ts c).1.drop qs.length = ts.drop qs.length
  | [], ts, c => by simp [mulAddRow]
  | q :: qs, [], c => by simp [mulAddRow]
  | q :: qs, ti :: ts, c => by
    rw [mulAddRow_cons]
    simpa using mulAddRow_drop mac m qs ts (mac m q ti c).2

theorem mulRow_exact (ai : ℕ) (hai : ai < U32) (bl t : List ℕ)
    (hbl : limbsBounded bl) (hblen : bl.length = 8)
    (ht : limbsBounded t) (hlen : 9 ≤ t.length)
    (h8 : t.getD 8 0 = 0) :
    limbsVal (mulRow mul_add_carry ai bl t)
        = limbsVal t + ai * limbsVal bl ∧
    limbsBounded (mulRow mul_add_carry ai bl t) ∧
    (mulRow mul_add_carry ai bl t).length = t.length ∧
    (mulRow mul_add_carry ai bl t).drop 9 = t.drop 9 := by
  obtain ⟨hrow, hrb, hcarry, hrlen⟩ :=
    mulAddRow_exact ai hai bl t 0 (by omega) hbl ht (by rw [U32_eq]; omega)
  have hdrop8 : (mulAddRow mul_add_carry ai bl t 0).1.drop 8 = t.drop 8 := by
    have := mulAddRow_drop mul_add_carry ai bl t 0
    rwa [hblen] at this
  have hpos8 : (mulAddRow mul_add_carry ai bl t 0).1.getD 8 0 = 0 := by
    rw [getD_headI_drop, hdrop8, ← getD_headI_drop]
    exact h8
  obtain ⟨hset, hsb, hsl⟩ :=
    limbsVal_set (mulAddRow mul_add_carry ai bl t 0).1 8
      (mulAddRow mul_add_carry ai bl t 0).2 (by omega) hcarry hrb
  rw [hpos8] at hset
  rw [hblen] at hrow
  have hunf : mulRow mul_add_carry ai bl t
      = ((mulAddRow mul_add_carry ai bl t 0).1).set 8
          (mulAddRow mul_add_carry ai bl t 0).2 := by
    rcases h : mulAddRow mul_add_carry ai bl t 0 with ⟨row, c⟩
    simp [mulRow, h]
  refine ⟨?_, by rw [hunf]; exact hsb, by rw [hunf, hsl, hrlen], ?_⟩
  · rw [hunf]
    have hc : (mulAddRow mul_add_carry ai bl t 0).2 * U32 ^ 8
        = U32 ^ 8 * (mulAddRow mul_add_carry ai bl t 0).2 := by ring
    omega
  · rw [hunf, drop_set_of_lt _ _ _ _ (by omega)]
    have h98 : (9 : ℕ) = 1 + 8 := rfl
    calc (mulAddRow mul_add_carry ai bl t 0).1.drop 9
        = ((mulAddRow mul_add_carry ai bl t 0).1.drop 8).drop 1 := by
          rw [List.drop_drop]
      _ = (t.drop 8).drop 1 := by rw [hdrop8]
      _ = t.drop 9 := by rw [List.drop_drop]

theorem mulLoop_exact (bl : List ℕ) (hbl : limbsBounded bl)
    (hblen : bl.length = 8) : ∀ (al t : List ℕ),
    limbsBounded al → limbsBounded t →
    al.length + 8 ≤ t.length →
    t.drop 8 = List.replicate (t.length - 8) 0 →
    limbsVal (mulLoop mul_add_carry bl al t)
        = limbsVal t + limbsVal al * limbsVal bl ∧
    limbsBounded (mulLoop mul_add_carry bl al t) ∧
    (mulLoop mul_add_carry bl al t).length = t.length
  | [], t, _, ht, _, _ => by
    simp [mulLoop, limbsVal, ht]
  | ai :: as, t, hal, ht, hlen, hzero => by
    have hai : ai < U32 := hal ai (by simp)
    have hal' : limbsBounded as := fun x hx => hal x (by simp [hx])
    have hlen9 : 9 ≤ t.length := by
      have := hlen
      simp only [List.length_cons] at this
      omega
    have h8 : t.getD 8 0 = 0 := by
      rw [getD_headI_drop, hzero]
      have : t.length - 8 = (t.length - 9) + 1 := by omega
      rw [this, List.replicate_succ]
      rfl
    obtain ⟨hrval, hrb, hrl, hrd⟩ :=
      mulRow_exact ai hai bl t hbl hblen ht hlen9 h8
    rcases hR : mulRow mul_add_carry ai bl t with _ | ⟨r0, rest⟩
    · rw [hR] at hrl
      simp at hrl
      omega
    · rw [hR] at hrval hrb hrl hrd
      have hrestb : limbsBounded rest := fun x hx => hrb x (by simp [hx])
      have hrestl : rest.length = t.length - 1 := by
        simp only [List.length_cons] at hrl
        omega
      have hrestz : rest.drop 8 = List.replicate (rest.length - 8) 0 := by
        have hd9 : (r0 :: rest).drop 9 = rest.drop 8 := rfl
        rw [hd9] at hrd
        rw [hrd]
        have ht9 : t.drop 9 = (t.drop 8).drop 1 := by rw [List.drop_drop]
        have hlen8 : t.length - 8 = (t.length - 9) + 1 := by omega
        have hlenr : rest.length - 8 = t.length - 9 := by omega
        rw [ht9, hzero, hlen8, List.replicate_succ, hlenr]
        rfl
      obtain ⟨ihval, ihb, ihl⟩ :=
        mulLoop_exact bl hbl hblen as rest hal' hrestb
          (by simp only [List.length_cons] at hlen; omega) hrestz
      have hunf : mulLoop mul_add_carry bl (ai :: as) t
          = r0 :: mulLoop mul_add_carry bl as rest := by
        simp only [mulLoop, hR]
      refine ⟨?_, ?_, ?_⟩
      · rw [hunf]
        simp only [limbsVal] at hrval ⊢
        rw [ihval]
        zify at hrval ⊢
        linear_combination hrval
      · rw [hunf]
        intro x hx
        rcases List.mem_cons.mp hx with rfl | hx
        · exact hrb x (by simp)
        · exact ihb x hx
      · rw [hunf]
        simp only [List.length_cons, ihl, hrestl]
        omega

/-- `mont_mul_256(a, b) = a·b·R⁻¹ mod p` for bounded 8-limb inputs with
`a·b < p·R`; the result is reduced, bounded and 8 limbs long. -/
theorem mont_mul_256_spec (a b : List ℕ)
    (ha : limbsBounded a) (hb : limbsBounded b)
    (hla : a.length = 8) (hlb : b.length = 8)
    (hab : limbsVal a * limbsVal b < limbsVal PALLAS_P * 2 ^ 256) :
    limbsVal (mont_mul_256 a b PALLAS_MONT_INV32 PALLAS_P)
      = limbsVal a * limbsVal b * PALLAS_RINV % limbsVal PALLAS_P ∧
    limbsVal (mont_mul_256 a b PALLAS_MONT_INV32 PALLAS_P)
      < limbsVal PALLAS_P ∧
    limbsBounded (mont_mul_256 a b PALLAS_MONT_INV32 PALLAS_P) ∧
    (mont_mul_256 a b PALLAS_MONT_INV32 PALLAS_P).length = 8 := by
  have hz : limbsBounded (List.replicate 16 (0 : ℕ)) := by
    intro x hx
    rw [List.eq_of_mem_replicate hx, U32_eq]
    omega
  obtain ⟨hpval, hpb, hpl⟩ :=
    mulLoop_exact b hb hlb a (List.replicate 16 0) ha hz
      (by simp [hla]) (by decide)
  rw [limbsVal_replicate_zero, zero_add] at hpval
  have hpl16 : (mulLoop mul_add_carry b a (List.replicate 16 0)).length = 16 := by
    rw [hpl]
    rfl
  have hred := montgomery_reduce_256_spec
    (mulLoop mul_add_carry b a (List.replicate 16 0)) hpb hpl16
    (by rw [hpval]; exact hab)
  rw [hpval] at hred
  exact hred

theorem limbsVal_eq_zero : ∀ (l : List ℕ), limbsVal l = 0 →
    l = List.replicate l.length 0
  | [], _ => rfl
  | x :: xs, h => by
    simp only [limbsVal] at h
    have hx : x = 0 := by rw [U32_eq] at h; omega
    have hxs : limbsVal xs = 0 := by rw [U32_eq] at h; omega
    simp only [List.length_cons, List.replicate_succ, hx]
    rw [limbsVal_eq_zero xs hxs]
    simp

theorem limbs_eq_of_val_eq : ∀ (a b : List ℕ), limbsBounded a → limbsBounded b →
    a.length = b.length → limbsVal a = limbsVal b → a = b
  | [], [], _, _, _, _ => rfl
  | [], _ :: _, _, _, hl, _ => by simp at hl
  | _ :: _, [], _, _, hl, _ => by simp at hl
  | x :: xs, y :: ys, ha, hb, hl, hv => by
    have hx : x < U32 := ha x (by simp)
    have hy : y < U32 := hb y (by simp)
    simp only [limbsVal] at hv
    have hx0 : x = y := by
      have h1 : x % U32 = y % U32 := by
        conv_lhs => rw [show x = (x + U32 * limbsVal xs) % U32 by
          rw [Nat.add_mul_mod_self_left, Nat.mod_eq_of_lt hx]]
        conv_rhs => rw [show y = (y + U32 * limbsVal ys) % U32 by
          rw [Nat.add_mul_mod_self_left, Nat.mod_eq_of_lt hy]]
        rw [hv]
      rwa [Nat.mod_eq_of_lt hx, Nat.mod_eq_of_lt hy] at h1
    subst hx0
    have hvs : limbsVal xs = limbsVal ys :=
      Nat.eq_of_mul_eq_mul_left (show 0 < U32 by rw [U32_eq]; omega) (by omega)
    rw [limbs_eq_of_val_eq xs ys (fun z hz => ha z (by simp [hz]))
      (fun z hz => hb z (by simp [hz])) (by simpa using hl) hvs]

theorem sub_borrow_aux_shape : ∀ (a b : List ℕ) (brw : ℕ), a.length = b.length →
    limbsBounded (sub_borrow_aux a b brw) ∧
    (sub_borrow_aux a b brw).length = a.length
  | [], [], brw, _ =>
    ⟨fun x hx => by simp [sub_borrow_aux] at hx, rfl⟩
  | [], _ :: _, _, hl => by simp at hl
  | _ :: _, [], _, hl => by simp at hl
  | ai :: as, bi :: bs, brw, hl => by
    obtain ⟨ihb0, ihl0⟩ := sub_borrow_aux_shape as bs 0 (by simpa using hl)
    obtain ⟨ihb1, ihl1⟩ := sub_borrow_aux_shape as bs 1 (by simpa using hl)
    constructor
    · intro x hx
      simp only [sub_borrow_aux] at hx
      split_ifs at hx with hc
      · rcases List.mem_cons.mp hx with rfl | hx
        · simp only [u32sub]
          exact Nat.mod_lt _ (by rw [U32_eq]; omega)
        · exact ihb0 x hx
      · rcases List.mem_cons.mp hx with rfl | hx
        · simp only [u32add]
          exact Nat.mod_lt _ (by rw [U32_eq]; omega)
        · exact ihb1 x hx
    · simp only [sub_borrow_aux]
      split_ifs
      · simp [ihl0]
      · simp [ihl1]

theorem sub_borrow_aux_self : ∀ (a : List ℕ),
    sub_borrow_aux a a 0 = List.replicate a.length 0
  | [] => rfl
  | x :: xs => by
    have hc : (x + 0) % U32 ≤ x := by
      simpa using Nat.mod_le x U32
    have hd : u32sub (u32sub x x) 0 = 0 := by
      simp only [u32sub, U32_eq]
      omega
    simp only [sub_borrow_aux, if_pos hc, List.length_cons, List.replicate_succ,
      hd, sub_borrow_aux_self xs]

/-- One iteration of the addition loop of `fn add_mod_256` (helpers.ts
bundle, lines 73–92), with the running carry; returns the result limbs and
the final carry. -/
def addLoop : List ℕ → List ℕ → ℕ → List ℕ × ℕ
  | [], _, c => ([], c)
  | _ :: _, [], c => ([], c)
  | ai :: as, bi :: bs, carry =>
    let sum_low := (ai + bi) % U32
    let cfl : ℕ := if sum_low < ai then 1 else 0
    let swc := (sum_low + carry) % U32
    let cfc : ℕ := if swc < sum_low then 1 else 0
    match addLoop as bs (cfl + cfc) with
    | (rest, cout) => (swc :: rest, cout)

/-- Source: `fn add_mod_256` (helpers.ts bundle, lines 73–92). -/
def add_mod_256 (a b pl : List ℕ) : List ℕ :=
  match addLoop a b 0 with
  | (result, carry) =>
    if carry != 0 || gte_256 result pl then sub_no_borrow_256 result pl
    else result

/-- Source: `fn sub_mod_256` (helpers.ts bundle, lines 99–106). -/
def sub_mod_256 (a b pl : List ℕ) : List ℕ :=
  if gte_256 a b then sub_no_borrow_256 a b
  else sub_no_borrow_256 pl (sub_no_borrow_256 b a)

theorem addLoop_shape : ∀ (a b : List ℕ) (c : ℕ), a.length = b.length →
    limbsBounded (addLoop a b c).1 ∧ (addLoop a b c).1.length = a.length
  | [], [], c, _ => ⟨fun x hx => by simp [addLoop] at hx, rfl⟩
  | [], _ :: _, _, hl => by simp at hl
  | _ :: _, [], _, hl => by simp at hl
  | ai :: as, bi :: bs, carry, hl => by
    simp only [addLoop]
    rcases h : addLoop as bs
        ((if (ai + bi) % U32 < ai then 1 else 0)
          + if ((ai + bi) % U32 + carry) % U32 < (ai + bi) % U32 then 1
            else 0) with ⟨rest, cout⟩
    obtain ⟨ihb, ihl⟩ := addLoop_shape as bs _ (by simpa using hl)
    rw [h] at ihb ihl
    constructor
    · intro x hx
      rcases List.mem_cons.mp hx with rfl | hx
      · exact Nat.mod_lt _ (by rw [U32_eq]; omega)
      · exact ihb x hx
    · simp [ihl]

theorem add_mod_256_shape (a b : List ℕ) (hla : a.length = 8)
    (hlb : b.length = 8) :
    limbsBounded (add_mod_256 a b PALLAS_P) ∧
    (add_mod_256 a b PALLAS_P).length = 8 := by
  obtain ⟨hb0, hl0⟩ := addLoop_shape a b 0 (by omega)
  rcases h : addLoop a b 0 with ⟨result, carry⟩
  rw [h] at hb0 hl0
  simp only [add_mod_256, h]
  split_ifs with hc
  · obtain ⟨hsb, hsl⟩ :=
      sub_borrow_aux_shape result PALLAS_P 0 (by rw [hl0, hla]; decide)
    exact ⟨hsb, by rw [show sub_no_borrow_256 result PALLAS_P
      = sub_borrow_aux result PALLAS_P 0 from rfl, hsl, hl0, hla]⟩
  · exact ⟨hb0, by rw [hl0, hla]⟩

theorem sub_mod_256_shape (a b : List ℕ) (hla : a.length = 8)
    (hlb : b.length = 8) :
    limbsBounded (sub_mod_256 a b PALLAS_P) ∧
    (sub_mod_256 a b PALLAS_P).length = 8 := by
  simp only [sub_mod_256]
  split_ifs with hc
  · obtain ⟨hsb, hsl⟩ := sub_borrow_aux_shape a b 0 (by omega)
    exact ⟨hsb, by rw [show sub_no_borrow_256 a b
      = sub_borrow_aux a b 0 from rfl, hsl, hla]⟩
  · obtain ⟨hsb1, hsl1⟩ := sub_borrow_aux_shape b a 0 (by omega)
    have hsl1' : (sub_no_borrow_256 b a).length = 8 := by
      rw [show sub_no_borrow_256 b a = sub_borrow_aux b a 0 from rfl, hsl1, hlb]
    obtain ⟨hsb2, hsl2⟩ :=
      sub_borrow_aux_shape PALLAS_P (sub_no_borrow_256 b a) 0
        (by rw [hsl1']; decide)
    exact ⟨hsb2, by rw [show sub_no_borrow_256 PALLAS_P (sub_no_borrow_256 b a)
      = sub_borrow_aux PALLAS_P (sub_no_borrow_256 b a) 0 from rfl, hsl2]; decide⟩

theorem montLoop_shape : ∀ (fuel : ℕ) (t : List ℕ),
    limbsBounded t → 7 + fuel ≤ t.length →
    limbsBounded (montLoop mul_add_carry PALLAS_P PALLAS_MONT_INV32 fuel t) ∧
    (montLoop mul_add_carry PALLAS_P PALLAS_MONT_INV32 fuel t).length
      = t.length
  | 0, t, ht, _ => ⟨by simpa [montLoop] using ht, by simp [montLoop]⟩
  | fuel + 1, t, ht, hlen => by
    obtain ⟨rest, hrest⟩ := montRound_head_zero t ht (by omega)
    obtain ⟨d, hd, hrb, hrl⟩ := montRound_exact t ht (by omega)
    have hrb' : limbsBounded rest := by
      rw [hrest] at hrb
      exact fun x hx => hrb x (by simp [hx])
    have hrl' : rest.length + 1 = t.length := by
      rw [hrest] at hrl
      simpa using hrl
    obtain ⟨ihb, ihl⟩ := montLoop_shape fuel rest hrb' (by omega)
    have hunf : montLoop mul_add_carry PALLAS_P PALLAS_MONT_INV32 (fuel + 1) t
        = 0 :: montLoop mul_add_carry PALLAS_P PALLAS_MONT_INV32 fuel rest := by
      simp only [montLoop, hrest]
    rw [hunf]
    refine ⟨?_, by simp [ihl, ← hrl']⟩
    intro x hx
    rcases List.mem_cons.mp hx with rfl | hx
    · rw [U32_eq]; omega
    · exact ihb x hx

theorem montgomery_reduce_256_shape (t : List ℕ)
    (ht : limbsBounded t) (hl : t.length = 16) :
    limbsBounded (montgomery_reduce_256 t PALLAS_MONT_INV32 PALLAS_P) ∧
    (montgomery_reduce_256 t PALLAS_MONT_INV32 PALLAS_P).length = 8 := by
  obtain ⟨hb2, hl2⟩ := montLoop_shape 8 t ht (by omega)
  set temp := montLoop mul_add_carry PALLAS_P PALLAS_MONT_INV32 8 t with htemp
  have hdlen : (temp.drop 8).length = 8 := by simp [hl2, hl]
  have htk8 : (temp.drop 8).take 8 = temp.drop 8 :=
    List.take_of_length_le (by omega)
  have hub : limbsBounded (temp.drop 8) :=
    fun x hx => hb2 x (List.drop_subset 8 temp hx)
  have hunf : montgomery_reduce_256 t PALLAS_MONT_INV32 PALLAS_P
      = if gte_256 ((temp.drop 8).take 8) PALLAS_P
        then sub_no_borrow_256 ((temp.drop 8).take 8) PALLAS_P
        else (temp.drop 8).take 8 := rfl
  rw [htk8] at hunf
  rw [hunf]
  split_ifs with hg
  · obtain ⟨hsb, hsl⟩ :=
      sub_borrow_aux_shape (temp.drop 8) PALLAS_P 0 (by rw [hdlen]; decide)
    exact ⟨hsb, by rw [show sub_no_borrow_256 (temp.drop 8) PALLAS_P
      = sub_borrow_aux (temp.drop 8) PALLAS_P 0 from rfl, hsl, hdlen]⟩
  · exact ⟨hub, hdlen⟩

theorem mulRow_shape (ai : ℕ) (hai : ai < U32) (bl t : List ℕ)
    (hbl : limbsBounded bl) (hblen : bl.length = 8)
    (ht : limbsBounded t) (hlen : 9 ≤ t.length) :
    limbsBounded (mulRow mul_add_carry ai bl t) ∧
    (mulRow mul_add_carry ai bl t).length = t.length := by
  obtain ⟨hrow, hrb, hcarry, hrlen⟩ :=
    mulAddRow_exact ai hai bl t 0 (by omega) hbl ht (by rw [U32_eq]; omega)
  obtain ⟨hset, hsb, hsl⟩ :=
    limbsVal_set (mulAddRow mul_add_carry ai bl t 0).1 8
      (mulAddRow mul_add_carry ai bl t 0).2 (by omega) hcarry hrb
  have hunf : mulRow mul_add_carry ai bl t
      = ((mulAddRow mul_add_carry ai bl t 0).1).set 8
          (mulAddRow mul_add_carry ai bl t 0).2 := by
    rcases h : mulAddRow mul_add_carry ai bl t 0 with ⟨row, c⟩
    simp [mulRow, h]
  rw [hunf]
  exact ⟨hsb, by rw [hsl, hrlen]⟩

theorem mulLoop_shape (bl : List ℕ) (hbl : limbsBounded bl)
    (hblen : bl.length = 8) : ∀ (al t : List ℕ),
    limbsBounded al → limbsBounded t → al.length + 8 ≤ t.length →
    limbsBounded (mulLoop mul_add_carry bl al t) ∧
    (mulLoop mul_add_carry bl al t).length = t.length
  | [], t, _, ht, _ => ⟨by simpa [mulLoop] using ht, by simp [mulLoop]⟩
  | ai :: as, t, hal, ht, hlen => by
    have hai : ai < U32 := hal ai (by simp)
    have hal' : limbsBounded as := fun x hx => hal x (by simp [hx])
    have hlen9 : 9 ≤ t.length := by
      simp only [List.length_cons] at hlen
      omega
    obtain ⟨hrb, hrl⟩ := mulRow_shape ai hai bl t hbl hblen ht hlen9
    rcases hR : mulRow mul_add_carry ai bl t with _ | ⟨r0, rest⟩
    · rw [hR] at hrl
      simp at hrl
      omega
    · rw [hR] at hrb hrl
      have hrestb : limbsBounded rest := fun x hx => hrb x (by simp [hx])
      have hrestl : rest.length = t.length - 1 := by
        simp only [List.length_cons] at hrl
        omega
      obtain ⟨ihb, ihl⟩ :=
        mulLoop_shape bl hbl hblen as rest hal' hrestb
          (by simp only [List.length_cons] at hlen; omega)
      have hunf : mulLoop mul_add_carry bl (ai :: as) t
          = r0 :: mulLoop mul_add_carry bl as rest := by
        simp only [mulLoop, hR]
      rw [hunf]
      constructor
      · intro x hx
        rcases List.mem_cons.mp hx with rfl | hx
        · exact hrb x (by simp)
        · exact ihb x hx
      · simp only [List.length_cons, ihl, hrestl]
        omega

theorem mont_mul_256_shape (a b : List ℕ)
    (ha : limbsBounded a) (hb : limbsBounded b)
    (hla : a.length = 8) (hlb : b.length = 8) :
    limbsBounded (mont_mul_256 a b PALLAS_MONT_INV32 PALLAS_P) ∧
    (mont_mul_256 a b PALLAS_MONT_INV32 PALLAS_P).length = 8 := by
  have hz : limbsBounded (List.replicate 16 (0 : ℕ)) := by
    intro x hx
    rw [List.eq_of_mem_replicate hx, U32_eq]
    omega
  obtain ⟨hpb, hpl⟩ :=
    mulLoop_shape b hb hlb a (List.replicate 16 0) ha hz (by simp [hla])
  have hpl16 : (mulLoop mul_add_carry b a (List.replicate 16 0)).length = 16 := by
    rw [hpl]
    rfl
  exact montgomery_reduce_256_shape _ hpb hpl16

/-- The inner 32-bit loop of `fn mod_inverse_mont_256` (helpers.ts bundle,
lines 244–267): scan `bits` LSB to MSB; multiply `result` by `base` on a set
bit, square `base` every iteration. -/
def invBitLoop (mac : ℕ → ℕ → ℕ → ℕ → ℕ × ℕ) (mi : ℕ) (pl : List ℕ) :
    ℕ → ℕ → List ℕ → List ℕ → List ℕ × List ℕ
  | 0, _, result, base => (result, base)
  | fuel + 1, bits, result, base =>
    invBitLoop mac mi pl fuel (bits / 2)
      (if bits % 2 = 1 then mont_mul_core mac result base mi pl else result)
      (mont_mul_core mac base base mi pl)

/-- The outer limb loop of `fn mod_inverse_mont_256`: one 32-bit scan per
exponent limb. -/
def invLimbLoop (mac : ℕ → ℕ → ℕ → ℕ → ℕ × ℕ) (mi : ℕ) (pl : List ℕ) :
    List ℕ → List ℕ → List ℕ → List ℕ × List ℕ
  | [], result, base => (result, base)
  | limb :: rest, result, base =>
    match invBitLoop mac mi pl 32 limb result base with
    | (r, b) => invLimbLoop mac mi pl rest r b

/-- Shared body of `fn mod_inverse_mont_256`: result starts as 1 converted
to Montgomery form, base is the (already Montgomery-form) argument, and the
exponent limbs are scanned LSB to MSB. -/
def mod_inverse_core (mac : ℕ → ℕ → ℕ → ℕ → ℕ × ℕ)
    (a r2 : List ℕ) (mi : ℕ) (pl pm2 : List ℕ) : List ℕ :=
  (invLimbLoop mac mi pl pm2 (mont_mul_core mac one8 r2 mi pl) a).1

/-- Source: `fn mod_inverse_mont_256` (helpers.ts bundle, lines 244–267). -/
def mod_inverse_mont_256 (a r2 : List ℕ) (mi : ℕ) (pl pm2 : List ℕ) :
    List ℕ :=
  mod_inverse_core mul_add_carry a r2 mi pl pm2

/-- `struct ProjectivePoint256` (types.wgsl): projective x, y, z limb
vectors, point at infinity iff z = 0. -/
structure ProjectivePoint256 where
  x : List ℕ
  y : List ℕ
  z : List ℕ
deriving DecidableEq

/-- `struct Point256` (types.wgsl): affine x, y limb vectors. -/
structure Point256 where
  x : List ℕ
  y : List ℕ
deriving DecidableEq

/-- Source: `fn is_infinity_proj_256` (helpers.ts bundle, lines 270–277):
all 8 z limbs are zero. -/
def is_infinity_proj_256 (P : ProjectivePoint256) : Bool :=
  (List.range 8).all fun i => P.z.getD i 0 == 0

/-- Source: `fn to_projective_256` (helpers.ts bundle, lines 282–293). -/
def to_projective_256 (x y r2 : List ℕ) (mi : ℕ) (pl : List ℕ) :
    ProjectivePoint256 :=
  { x := to_montgomery_256 x r2 mi pl
    y := to_montgomery_256 y r2 mi pl
    z := to_montgomery_256 one8 r2 mi pl }

/-- Source: `fn to_affine_256` (helpers.ts bundle, lines 304–324). -/
def to_affine_256 (P : ProjectivePoint256) (r2 : List ℕ) (mi : ℕ)
    (pl pm2 : List ℕ) : Point256 :=
  if is_infinity_proj_256 P then
    { x := List.replicate 8 0, y := List.replicate 8 0 }
  else
    let z_inv := mod_inverse_mont_256 P.z r2 mi pl pm2
    let qx := mont_mul_256 P.x z_inv mi pl
    let qy := mont_mul_256 P.y z_inv mi pl
    { x := from_montgomery_256 qx mi pl, y := from_montgomery_256 qy mi pl }

/-- Source: `fn point_double_proj_256` (helpers.ts bundle, lines 336–375),
dbl-2009-l formulas on Jacobian coordinates. -/
def point_double_proj_256 (P : ProjectivePoint256) (mi : ℕ) (pl : List ℕ) :
    ProjectivePoint256 :=
  if is_infinity_proj_256 P then P
  else
    let xx := mont_mul_256 P.x P.x mi pl
    let yy := mont_mul_256 P.y P.y mi pl
    let yyyy := mont_mul_256 yy yy mi pl
    let zz := mont_mul_256 P.z P.z mi pl
    let sa := add_mod_256 P.x yy pl
    let sb := mont_mul_256 sa sa mi pl
    let sc := sub_mod_256 sb xx pl
    let sd := sub_mod_256 sc yyyy pl
    let s := add_mod_256 sd sd pl
    let ma := add_mod_256 xx xx pl
    let m := add_mod_256 ma xx pl
    let ta := mont_mul_256 m m mi pl
    let t := sub_mod_256 ta (add_mod_256 s s pl) pl
    let ya := sub_mod_256 s t pl
    let yb := mont_mul_256 m ya mi pl
    let y2 := add_mod_256 yyyy yyyy pl
    let y4 := add_mod_256 y2 y2 pl
    let y8 := add_mod_256 y4 y4 pl
    let qy := sub_mod_256 yb y8 pl
    let za := add_mod_256 P.y P.z pl
    let zb := mont_mul_256 za za mi pl
    let zc := sub_mod_256 zb yy pl
    let qz := sub_mod_256 zc zz pl
    { x := t, y := qy, z := qz }

/-- Source: `fn point_add_proj_256` (helpers.ts bundle, lines 388–442),
add-2007-bl formulas on Jacobian coordinates with identity and
equal-point handling. -/
def point_add_proj_256 (P Q : ProjectivePoint256) (mi : ℕ) (pl : List ℕ) :
    ProjectivePoint256 :=
  if is_infinity_proj_256 P then Q
  else if is_infinity_proj_256 Q then P
  else
    let z1z1 := mont_mul_256 P.z P.z mi pl
    let z2z2 := mont_mul_256 Q.z Q.z mi pl
    let u1 := mont_mul_256 P.x z2z2 mi pl
    let u2 := mont_mul_256 Q.x z1z1 mi pl
    let s1 := mont_mul_256 P.y (mont_mul_256 Q.z z2z2 mi pl) mi pl
    let s2 := mont_mul_256 Q.y (mont_mul_256 P.z z1z1 mi pl) mi pl
    let same_x := (List.range 8).all fun i => u1.getD i 0 == u2.getD i 0
    let same_y := (List.range 8).all fun i => s1.getD i 0 == s2.getD i 0
    if same_x && same_y then point_double_proj_256 P mi pl
    else
      let h := sub_mod_256 u2 u1 pl
      let ia := add_mod_256 h h pl
      let i := mont_mul_256 ia ia mi pl
      let j := mont_mul_256 h i mi pl
      let ra := sub_mod_256 s2 s1 pl
      let r := add_mod_256 ra ra pl
      let v := mont_mul_256 u1 i mi pl
      let xa := mont_mul_256 r r mi pl
      let xb := sub_mod_256 xa j pl
      let x3 := sub_mod_256 xb (add_mod_256 v v pl) pl
      let ya := sub_mod_256 v x3 pl
      let yb := mont_mul_256 r ya mi pl
      let s1j := mont_mul_256 s1 j mi pl
      let s1j2 := add_mod_256 s1j s1j pl
      let y3 := sub_mod_256 yb s1j2 pl
      let za := add_mod_256 P.z Q.z pl
      let zb := mont_mul_256 za za mi pl
      let zc := sub_mod_256 zb z1z1 pl
      let zd := sub_mod_256 zc z2z2 pl
      let z3 := mont_mul_256 zd h mi pl
      { x := x3, y := y3, z := z3 }

theorem gte_aux_self (a : List ℕ) : ∀ i, gte_aux a a i = true
  | 0 => by simp [gte_aux]
  | i + 1 => by simp [gte_aux, gte_aux_self a i]

theorem gte_256_self (a : List ℕ) : gte_256 a a = true := gte_aux_self a 7

theorem mont_mul_256_zero_right (a : List ℕ) (ha : limbsBounded a)
    (hla : a.length = 8) :
    mont_mul_256 a (List.replicate 8 0) PALLAS_MONT_INV32 PALLAS_P
      = List.replicate 8 0 := by
  have hzb : limbsBounded (List.replicate 8 (0 : ℕ)) := by
    intro x hx
    rw [List.eq_of_mem_replicate hx, U32_eq]
    omega
  obtain ⟨hval, hlt, hb, hl⟩ :=
    mont_mul_256_spec a (List.replicate 8 0) ha hzb hla rfl
      (by
        rw [limbsVal_replicate_zero, mul_zero]
        have : (0 : ℕ) < limbsVal PALLAS_P := by decide
        have h2 : (0 : ℕ) < 2 ^ 256 := by positivity
        exact Nat.mul_pos this h2)
  rw [limbsVal_replicate_zero, mul_zero, zero_mul, Nat.zero_mod] at hval
  have hz := limbsVal_eq_zero _ hval
  rw [hl] at hz
  exact hz

theorem eq_of_getD_eq : ∀ (a b : List ℕ), a.length = b.length →
    (∀ i, i < a.length → a.getD i 0 = b.getD i 0) → a = b
  | [], [], _, _ => rfl
  | [], _ :: _, h, _ => by simp at h
  | _ :: _, [], h, _ => by simp at h
  | x :: xs, y :: ys, h, hg => by
    have hx : x = y := by simpa using hg 0 (by simp)
    rw [hx, eq_of_getD_eq xs ys (by simpa using h)
      (fun i hi => by simpa using hg (i + 1) (by simpa using hi))]

/-- C9: `point_add_proj_256` absorbs an identity argument (`P` at infinity
gives `Q`, `Q` at infinity gives `P`), and for finite well-formed points
with `U1 = U2` and `S1 ≠ S2` in the add-2007-bl computation (inverse
points) it returns the identity: the resulting `z` limbs are all zero. -/
theorem point_add_proj_256_spec (P Q : ProjectivePoint256)
    (hPx : limbsBounded P.x) (hPxl : P.x.length = 8)
    (hPy : limbsBounded P.y) (hPyl : P.y.length = 8)
    (hPz : limbsBounded P.z) (hPzl : P.z.length = 8)
    (hQx : limbsBounded Q.x) (hQxl : Q.x.length = 8)
    (hQy : limbsBounded Q.y) (hQyl : Q.y.length = 8)
    (hQz : limbsBounded Q.z) (hQzl : Q.z.length = 8) :
    (is_infinity_proj_256 P = true →
      point_add_proj_256 P Q PALLAS_MONT_INV32 PALLAS_P = Q) ∧
    (is_infinity_proj_256 P = false → is_infinity_proj_256 Q = true →
      point_add_proj_256 P Q PALLAS_MONT_INV32 PALLAS_P = P) ∧
    (is_infinity_proj_256 P = false → is_infinity_proj_256 Q = false →
      mont_mul_256 P.x (mont_mul_256 Q.z Q.z PALLAS_MONT_INV32 PALLAS_P)
          PALLAS_MONT_INV32 PALLAS_P
        = mont_mul_256 Q.x (mont_mul_256 P.z P.z PALLAS_MONT_INV32 PALLAS_P)
            PALLAS_MONT_INV32 PALLAS_P →
      mont_mul_256 P.y
          (mont_mul_256 Q.z (mont_mul_256 Q.z Q.z PALLAS_MONT_INV32 PALLAS_P)
            PALLAS_MONT_INV32 PALLAS_P) PALLAS_MONT_INV32 PALLAS_P
        ≠ mont_mul_256 Q.y
            (mont_mul_256 P.z (mont_mul_256 P.z P.z PALLAS_MONT_INV32 PALLAS_P)
              PALLAS_MONT_INV32 PALLAS_P) PALLAS_MONT_INV32 PALLAS_P →
      is_infinity_proj_256
        (point_add_proj_256 P Q PALLAS_MONT_INV32 PALLAS_P) = true) := by
  refine ⟨?_, ?_, ?_⟩
  · intro h
    simp [point_add_proj_256, h]
  · intro h1 h2
    simp [point_add_proj_256, h1, h2]
  · intro h1 h2 hU hS
    obtain ⟨hz1b, hz1l⟩ := mont_mul_256_shape P.z P.z hPz hPz hPzl hPzl
    obtain ⟨hz2b, hz2l⟩ := mont_mul_256_shape Q.z Q.z hQz hQz hQzl hQzl
    set z1z1 := mont_mul_256 P.z P.z PALLAS_MONT_INV32 PALLAS_P with hz1z1
    set z2z2 := mont_mul_256 Q.z Q.z PALLAS_MONT_INV32 PALLAS_P with hz2z2
    obtain ⟨hu1b, hu1l⟩ := mont_mul_256_shape P.x z2z2 hPx hz2b hPxl hz2l
    obtain ⟨hu2b, hu2l⟩ := mont_mul_256_shape Q.x z1z1 hQx hz1b hQxl hz1l
    obtain ⟨hw1b, hw1l⟩ := mont_mul_256_shape Q.z z2z2 hQz hz2b hQzl hz2l
    obtain ⟨hw2b, hw2l⟩ := mont_mul_256_shape P.z z1z1 hPz hz1b hPzl hz1l
    obtain ⟨hs1b, hs1l⟩ := mont_mul_256_shape P.y
      (mont_mul_256 Q.z z2z2 PALLAS_MONT_INV32 PALLAS_P) hPy hw1b hPyl hw1l
    obtain ⟨hs2b, hs2l⟩ := mont_mul_256_shape Q.y
      (mont_mul_256 P.z z1z1 PALLAS_MONT_INV32 PALLAS_P) hQy hw2b hQyl hw2l
    set u1 := mont_mul_256 P.x z2z2 PALLAS_MONT_INV32 PALLAS_P with hu1d
    set u2 := mont_mul_256 Q.x z1z1 PALLAS_MONT_INV32 PALLAS_P with hu2d
    set s1 := mont_mul_256 P.y (mont_mul_256 Q.z z2z2 PALLAS_MONT_INV32
      PALLAS_P) PALLAS_MONT_INV32 PALLAS_P with hs1d
    set s2 := mont_mul_256 Q.y (mont_mul_256 P.z z1z1 PALLAS_MONT_INV32
      PALLAS_P) PALLAS_MONT_INV32 PALLAS_P with hs2d
    have hsx : ((List.range 8).all fun i => u1.getD i 0 == u2.getD i 0)
        = true := by
      rw [hU]
      simp
    have hsy : ((List.range 8).all fun i => s1.getD i 0 == s2.getD i 0)
        = false := by
      by_contra hc
      rw [Bool.not_eq_false, List.all_eq_true] at hc
      refine hS (eq_of_getD_eq s1 s2 (by rw [hs1l, hs2l]) ?_)
      intro i hi
      have := hc i (by simp only [List.mem_range]; omega)
      simpa using this
    have hh : sub_mod_256 u2 u1 PALLAS_P = List.replicate 8 0 := by
      rw [hU]
      simp only [sub_mod_256, gte_256_self, if_true]
      rw [show sub_no_borrow_256 u2 u2 = sub_borrow_aux u2 u2 0 from rfl,
        sub_borrow_aux_self, hu2l]
    obtain ⟨hzab, hzal⟩ := add_mod_256_shape P.z Q.z hPzl hQzl
    obtain ⟨hzbb, hzbl⟩ := mont_mul_256_shape (add_mod_256 P.z Q.z PALLAS_P)
      (add_mod_256 P.z Q.z PALLAS_P) hzab hzab hzal hzal
    obtain ⟨hzcb, hzcl⟩ := sub_mod_256_shape
      (mont_mul_256 (add_mod_256 P.z Q.z PALLAS_P)
        (add_mod_256 P.z Q.z PALLAS_P) PALLAS_MONT_INV32 PALLAS_P)
      z1z1 hzbl hz1l
    obtain ⟨hzdb, hzdl⟩ := sub_mod_256_shape
      (sub_mod_256 (mont_mul_256 (add_mod_256 P.z Q.z PALLAS_P)
        (add_mod_256 P.z Q.z PALLAS_P) PALLAS_MONT_INV32 PALLAS_P)
        z1z1 PALLAS_P) z2z2 hzcl hz2l
    have hz3 : mont_mul_256
        (sub_mod_256 (sub_mod_256 (mont_mul_256 (add_mod_256 P.z Q.z PALLAS_P)
          (add_mod_256 P.z Q.z PALLAS_P) PALLAS_MONT_INV32 PALLAS_P)
          z1z1 PALLAS_P) z2z2 PALLAS_P)
        (sub_mod_256 u2 u1 PALLAS_P) PALLAS_MONT_INV32 PALLAS_P
        = List.replicate 8 0 := by
      rw [hh]
      exact mont_mul_256_zero_right _ hzdb hzdl
    simp only [point_add_proj_256, h1, h2, Bool.false_eq_true, if_false]
    rw [hsx, hsy]
    simp only [Bool.true_and, Bool.false_eq_true, if_false]
    simp only [is_infinity_proj_256]
    rw [hz3]
    decide

theorem point_add_proj_256_spec_witness :
    point_add_proj_256 ⟨one8, one8, List.replicate 8 0⟩ ⟨one8, one8, one8⟩
        PALLAS_MONT_INV32 PALLAS_P = ⟨one8, one8, one8⟩ ∧
    point_add_proj_256 ⟨one8, one8, one8⟩ ⟨one8, one8, List.replicate 8 0⟩
        PALLAS_MONT_INV32 PALLAS_P = ⟨one8, one8, one8⟩ ∧
    is_infinity_proj_256 (point_add_proj_256
      ⟨one8, one8, one8⟩ ⟨one8, [2, 0, 0, 0, 0, 0, 0, 0], one8⟩
      PALLAS_MONT_INV32 PALLAS_P) = true :=
  ⟨(point_add_proj_256_spec ⟨one8, one8, List.replicate 8 0⟩
      ⟨one8, one8, one8⟩ (by decide) (by decide) (by decide) (by decide)
      (by decide) (by decide) (by decide) (by decide) (by decide) (by decide)
      (by decide) (by decide)).1 (by decide),
   (point_add_proj_256_spec ⟨one8, one8, one8⟩
      ⟨one8, one8, List.replicate 8 0⟩ (by decide) (by decide) (by decide)
      (by decide) (by decide) (by decide) (by decide) (by decide) (by decide)
      (by decide) (by decide) (by decide)).2.1 (by decide) (by decide),
   (point_add_proj_256_spec ⟨one8, one8, one8⟩
      ⟨one8, [2, 0, 0, 0, 0, 0, 0, 0], one8⟩ (by decide) (by decide)
      (by decide) (by decide) (by decide) (by decide) (by decide) (by decide)
      (by decide) (by decide) (by decide) (by decide)).2.2
      (by decide) (by decide) (by decide) (by decide)⟩

/-- C7 (amended): with the `PALLAS_R2` constant of curve.wgsl lines 52–55
(the true `R² mod p`), converting a field element to Montgomery form and
back is the identity.  With the constant of lines 14–17 it is not (see the
counterexample). -/
theorem to_from_montgomery_roundtrip (a : List ℕ)
    (ha : limbsBounded a) (hla : a.length = 8)
    (hlt : limbsVal a < limbsVal PALLAS_P) :
    from_montgomery_256
      (to_montgomery_256 a PALLAS_R2 PALLAS_MONT_INV32 PALLAS_P)
      PALLAS_MONT_INV32 PALLAS_P = a := by
  have hR2b : limbsBounded PALLAS_R2 := by decide
  have hR2l : PALLAS_R2.length = 8 := by decide
  have hR2ltp : limbsVal PALLAS_R2 < limbsVal PALLAS_P := by decide
  have hab1 : limbsVal a * limbsVal PALLAS_R2
      < limbsVal PALLAS_P * 2 ^ 256 := by
    calc limbsVal a * limbsVal PALLAS_R2
        < limbsVal PALLAS_P * limbsVal PALLAS_P :=
          mul_lt_mul'' hlt hR2ltp (Nat.zero_le _) (Nat.zero_le _)
    _ ≤ limbsVal PALLAS_P * 2 ^ 256 := Nat.mul_le_mul_left _ (by decide)
  obtain ⟨h1val, h1lt, h1b, h1l⟩ :=
    mont_mul_256_spec a PALLAS_R2 ha hR2b hla hR2l hab1
  have hone_b : limbsBounded one8 := by decide
  have hone_l : one8.length = 8 := by decide
  have hone_v : limbsVal one8 = 1 := by decide
  have hab2 : limbsVal (mont_mul_256 a PALLAS_R2 PALLAS_MONT_INV32 PALLAS_P)
      * limbsVal one8 < limbsVal PALLAS_P * 2 ^ 256 := by
    rw [hone_v, mul_one]
    exact lt_of_lt_of_le h1lt (Nat.le_mul_of_pos_right _ (by positivity))
  obtain ⟨h2val, h2lt, h2b, h2l⟩ :=
    mont_mul_256_spec (mont_mul_256 a PALLAS_R2 PALLAS_MONT_INV32 PALLAS_P)
      one8 h1b hone_b h1l hone_l hab2
  have hval : limbsVal (from_montgomery_256
      (to_montgomery_256 a PALLAS_R2 PALLAS_MONT_INV32 PALLAS_P)
      PALLAS_MONT_INV32 PALLAS_P) = limbsVal a := by
    show limbsVal (mont_mul_256
      (mont_mul_256 a PALLAS_R2 PALLAS_MONT_INV32 PALLAS_P) one8
      PALLAS_MONT_INV32 PALLAS_P) = limbsVal a
    rw [h2val, hone_v, mul_one, h1val, Nat.mod_mul_mod]
    have hassoc : limbsVal a * limbsVal PALLAS_R2 * PALLAS_RINV * PALLAS_RINV
        = limbsVal a * (limbsVal PALLAS_R2 * PALLAS_RINV * PALLAS_RINV) := by
      ring
    rw [hassoc, Nat.mul_mod]
    have hK : limbsVal PALLAS_R2 * PALLAS_RINV * PALLAS_RINV
        % limbsVal PALLAS_P = 1 := by decide
    rw [hK, Nat.mod_eq_of_lt hlt, mul_one, Nat.mod_eq_of_lt hlt]
  have hlen : (from_montgomery_256
      (to_montgomery_256 a PALLAS_R2 PALLAS_MONT_INV32 PALLAS_P)
      PALLAS_MONT_INV32 PALLAS_P).length = a.length := by
    rw [hla]
    exact h2l
  exact limbs_eq_of_val_eq _ _ h2b ha hlen hval

theorem to_from_montgomery_roundtrip_witness :
    from_montgomery_256
      (to_montgomery_256 [7, 0, 0, 0, 0, 0, 0, 0] PALLAS_R2
        PALLAS_MONT_INV32 PALLAS_P) PALLAS_MONT_INV32 PALLAS_P
      = [7, 0, 0, 0, 0, 0, 0, 0] :=
  to_from_montgomery_roundtrip [7, 0, 0, 0, 0, 0, 0, 0]
    (by decide) (by decide) (by decide)

/-- C7 (counterexample): with the `PALLAS_R2` constant of curve.wgsl lines
14–17 (also `MONTGOMERY_R2` of `unnamed/part_000`) the round trip is not
the identity, already at `a = 1`. -/
theorem to_from_montgomery_roundtrip_counterexample :
    from_montgomery_256
      (to_montgomery_256 one8 PALLAS_R2_alt PALLAS_MONT_INV32 PALLAS_P)
      PALLAS_MONT_INV32 PALLAS_P ≠ one8 := by decide

/-- C6 (amended): for every 16-limb input `T < p·R` (the range
`montgomery_reduce_256` is actually called on; the claim's "every 512-bit
input" is too large, see the counterexample), the result is
`T·R⁻¹ mod p`, lies in `[0, p)`, and is a bounded 8-limb value. -/
theorem montgomery_reduce_256_correct (t : List ℕ)
    (ht : limbsBounded t) (hl : t.length = 16)
    (hT : limbsVal t < limbsVal PALLAS_P * 2 ^ 256) :
    limbsVal (montgomery_reduce_256 t PALLAS_MONT_INV32 PALLAS_P)
      = limbsVal t * PALLAS_RINV % limbsVal PALLAS_P ∧
    limbsVal (montgomery_reduce_256 t PALLAS_MONT_INV32 PALLAS_P)
      < limbsVal PALLAS_P ∧
    limbsBounded (montgomery_reduce_256 t PALLAS_MONT_INV32 PALLAS_P) ∧
    (montgomery_reduce_256 t PALLAS_MONT_INV32 PALLAS_P).length = 8 :=
  montgomery_reduce_256_spec t ht hl hT

theorem montgomery_reduce_256_correct_witness :
    limbsVal (montgomery_reduce_256 [1, 0, 0, 0, 0, 0, 0, 0, 0, 0, 0, 0, 0, 0, 0, 0]
        PALLAS_MONT_INV32 PALLAS_P)
      = limbsVal [1, 0, 0, 0, 0, 0, 0, 0, 0, 0, 0, 0, 0, 0, 0, 0]
          * PALLAS_RINV % limbsVal PALLAS_P ∧
    limbsVal (montgomery_reduce_256 [1, 0, 0, 0, 0, 0, 0, 0, 0, 0, 0, 0, 0, 0, 0, 0]
        PALLAS_MONT_INV32 PALLAS_P) < limbsVal PALLAS_P ∧
    limbsBounded (montgomery_reduce_256 [1, 0, 0, 0, 0, 0, 0, 0, 0, 0, 0, 0, 0, 0, 0, 0]
        PALLAS_MONT_INV32 PALLAS_P) ∧
    (montgomery_reduce_256 [1, 0, 0, 0, 0, 0, 0, 0, 0, 0, 0, 0, 0, 0, 0, 0]
        PALLAS_MONT_INV32 PALLAS_P).length = 8 :=
  montgomery_reduce_256_correct [1, 0, 0, 0, 0, 0, 0, 0, 0, 0, 0, 0, 0, 0, 0, 0]
    (by decide) (by decide) (by decide)

/-- C6 (counterexample): on the all-ones 512-bit input the carry that the
reduction loop lets fall off the 16-limb buffer (`k < 16` guard) breaks the
congruence: the result is not `T·R⁻¹ mod p`. -/
theorem montgomery_reduce_256_counterexample :
    limbsVal (montgomery_reduce_256 (List.replicate 16 0xFFFFFFFF)
        PALLAS_MONT_INV32 PALLAS_P)
      ≠ limbsVal (List.replicate 16 0xFFFFFFFF) * PALLAS_RINV
          % limbsVal PALLAS_P := by decide

/-- C2 (amended): `mul_add_carry` of helpers.ts computes the exact 64-bit
`a·b + acc + carry`, returning low and high 32 bits, with the stated
boundary value. -/
theorem mul_add_carry_spec (a b acc carry : ℕ)
    (ha : a < U32) (hb : b < U32) (hacc : acc < U32) (hc : carry < U32) :
    ((mul_add_carry a b acc carry).1 + U32 * (mul_add_carry a b acc carry).2
        = a * b + acc + carry ∧
      (mul_add_carry a b acc carry).1 < U32 ∧
      (mul_add_carry a b acc carry).2 < U32) ∧
    mul_add_carry 0xFFFFFFFF 0xFFFFFFFF 0 0 = (1, 0xFFFFFFFE) :=
  ⟨mul_add_carry_exact a b acc carry ha hb hacc hc, by decide⟩

theorem mul_add_carry_spec_witness :
    (((mul_add_carry 3 5 7 11).1 + U32 * (mul_add_carry 3 5 7 11).2
        = 3 * 5 + 7 + 11 ∧
      (mul_add_carry 3 5 7 11).1 < U32 ∧
      (mul_add_carry 3 5 7 11).2 < U32) ∧
    mul_add_carry 0xFFFFFFFF 0xFFFFFFFF 0 0 = (1, 0xFFFFFFFE)) :=
  mul_add_carry_spec 3 5 7 11 (by decide) (by decide) (by decide) (by decide)

/-- C2 (counterexample): `mul_add_carry256` of arithmetic.wgsl forgets to
shift `mid_carry` left by 16 bits, so at the claimed boundary input it
returns carry `0xFFFEFFFF` instead of `0xFFFFFFFE` and is not exact. -/
theorem mul_add_carry256_counterexample :
    mul_add_carry256 0xFFFFFFFF 0xFFFFFFFF 0 0 = (1, 0xFFFEFFFF) ∧
    mul_add_carry256 0xFFFFFFFF 0xFFFFFFFF 0 0 ≠ (1, 0xFFFFFFFE) ∧
    (mul_add_carry256 0xFFFFFFFF 0xFFFFFFFF 0 0).1
        + U32 * (mul_add_carry256 0xFFFFFFFF 0xFFFFFFFF 0 0).2
      ≠ 0xFFFFFFFF * 0xFFFFFFFF + 0 + 0 := by decide

/-- C5 (divergence evaluation): for `a = 2^64` and `b = 2^64 - 2^32 + 1`
(so `b` has limb `0xFFFFFFFF` receiving an incoming borrow) the code
returns `2^64 + 2^32 - 1` instead of `a - b = 2^32 - 1`: the wrapping
comparison `ai >= bi + borrow` evaluates `0xFFFFFFFF + 1` to `0` and the
borrow is dropped. -/
theorem sub_no_borrow_256_bug :
    gte_256 [0, 0, 1, 0, 0, 0, 0, 0] [1, 0xFFFFFFFF, 0, 0, 0, 0, 0, 0] = true ∧
    limbsVal [0, 0, 1, 0, 0, 0, 0, 0]
        - limbsVal [1, 0xFFFFFFFF, 0, 0, 0, 0, 0, 0] = 0xFFFFFFFF ∧
    limbsVal (sub_no_borrow_256 [0, 0, 1, 0, 0, 0, 0, 0]
        [1, 0xFFFFFFFF, 0, 0, 0, 0, 0, 0]) = 0x100000000FFFFFFFF := by decide

/-- `P_MINUS_2` as baked in `unnamed/part_000` (lines 39–42). -/
def part000_P_MINUS_2 : List ℕ :=
  [0xFFFFFFFF, 0x992d30ec, 0x094cf91b, 0x224698fc,
   0xFFFFFFFF, 0xFFFFFFFF, 0xFFFFFFFF, 0x3FFFFFFF]

/-- C8 (divergence evaluation): the `P_MINUS_2` constant of
`unnamed/part_000` is not `p - 2`: it is `p - 2 - 2^128`, so the Fermat
loop there raises to the wrong exponent (the curve.wgsl constant is the
correct one). -/
theorem part000_P_MINUS_2_wrong :
    limbsVal part000_P_MINUS_2 = limbsVal PALLAS_P - 2 - 2 ^ 128 ∧
    limbsVal part000_P_MINUS_2 ≠ limbsVal PALLAS_P - 2 ∧
    limbsVal PALLAS_P_MINUS_2 = limbsVal PALLAS_P - 2 := by decide

/-- `IDENTITY_LIMBS_256` triple: WebGPU storage and workgroup buffers are
zero-initialized, and the shaders' identity padding writes all-zero limb
vectors (z = 0 marks the point at infinity). -/
def identityPoint : ProjectivePoint256 :=
  ⟨List.replicate 8 0, List.replicate 8 0, List.replicate 8 0⟩

/-- Source: `bigint256ToLimbs` (helpers.ts lines 2–11): 8 little-endian
u32 limbs, `v & 0xFFFFFFFF` then `v >>= 32` per limb. -/
def bigint256ToLimbs (value : ℕ) : List ℕ :=
  (List.range 8).map fun i => value / 2 ^ (32 * i) % U32

/-- Source: `limbs256ToBigint` (helpers.ts lines 13–19): fold from limb 7
down, `(result << 32) | limb` (the or is an add: `result << 32` has no low
bits and limbs are below `2^32`). -/
def limbs256ToBigint (limbs : List ℕ) : ℕ :=
  (List.range 8).foldl (fun result i => result * 2 ^ 32 + limbs.getD (7 - i) 0) 0

/-- One round of the shaders' in-place binary tree reduction: threads
`i < stride` that are alive (`i < live`; a shader that returned early for
`idx >= n` leaves its slot untouched) add slot `i + stride` into slot `i`.
Reads of slot `i + stride` see the pre-round value: only threads below
`stride` write, and `i + stride ≥ stride`. -/
def reduceRound (live : ℕ) (pts : List ProjectivePoint256) (stride : ℕ) :
    List ProjectivePoint256 :=
  pts.mapIdx fun i p =>
    if i < stride ∧ i < live then
      point_add_proj_256 p (pts.getD (i + stride) identityPoint)
        PALLAS_MONT_INV32 PALLAS_P
    else p

/-- Bi1's window extraction (part_002 lines 573–587): bits
`[bucket_idx·w, bucket_idx·w + w)` of the 8-limb scalar; `>>` is `/2^`,
`& mask` is `% 2^w` (for `w ≤ 22`, `(1u << w) - 1` is exactly `2^w - 1`),
and `low | high` is an add because the operands occupy disjoint bits. -/
def windowExtract (k : List ℕ) (bucket_idx w : ℕ) : ℕ :=
  let bit_offset := bucket_idx * w
  let limb_index := bit_offset / 32
  let bit_in_limb := bit_offset % 32
  if bit_in_limb + w ≤ 32 then
    k.getD limb_index 0 / 2 ^ bit_in_limb % 2 ^ w
  else
    let low := k.getD limb_index 0 / 2 ^ bit_in_limb
    let high := k.getD (limb_index + 1) 0 * 2 ^ (32 - bit_in_limb) % U32
    (low + high) % 2 ^ w

/-- Pass Bi1 (part_002 lines 536–630), one workgroup (`n ≤ 64`): thread
`i < n` loads `P_i` if its window value equals `bucket`, else the identity;
dead threads leave the zero-initialized (identity) slots; tree reduce with
strides 32..1 where only live threads add; returns `WGG[0]`. -/
def passBi1 (k : List (List ℕ)) (pts : List ProjectivePoint256)
    (w bucket : ℕ) : ProjectivePoint256 :=
  let n := k.length
  let wgl := (List.range 64).map fun i =>
    if i < n then
      if windowExtract (k.getD i []) bucket w = bucket then
        pts.getD i identityPoint
      else identityPoint
    else identityPoint
  ([32, 16, 8, 4, 2, 1].foldl (reduceRound n) wgl).getD 0 identityPoint

/-- Pass Bi2 (part_002 lines 633–715), one workgroup: loads `WGG[0..n)`
padded with identities; the reduction uses `half = stride >> 1`, so the
rounds run at strides 16, 8, 4, 2, 1 (slots 32–63 are never added in);
for `n ≤ 64` the final write REPLACES `B[bucket]` with the reduced value
(`Bx[bucket_idx] = WGGx[0]`). -/
def passBi2 (wgg : List ProjectivePoint256) (n : ℕ)
    (bbuf : List ProjectivePoint256) (bucket : ℕ) :
    List ProjectivePoint256 :=
  let wgl := (List.range 64).map fun i =>
    if i < n then wgg.getD i identityPoint else identityPoint
  let red := ([16, 8, 4, 2, 1].foldl (reduceRound 64) wgl).getD 0 identityPoint
  if n ≤ 64 then bbuf.set bucket red else bbuf

/-- Pass C's double-and-add scale loop (part_002 lines 781–804):
`while (weight > 0)` — add `temp` on an odd weight, halve, double `temp`
while weight remains positive.  `fuel ≥ 32` covers every u32 weight. -/
def scaleLoop : ℕ → ℕ → ProjectivePoint256 → ProjectivePoint256 →
    ProjectivePoint256
  | 0, _, acc, _ => acc
  | fuel + 1, w, acc, temp =>
    if w = 0 then acc
    else
      scaleLoop fuel (w / 2)
        (if w % 2 = 1 then
          point_add_proj_256 acc temp PALLAS_MONT_INV32 PALLAS_P
        else acc)
        (if 0 < w / 2 then point_double_proj_256 temp PALLAS_MONT_INV32 PALLAS_P
        else temp)

/-- Pass C (part_002 lines 718–826), one workgroup (`NUM_BUCKETS ≤ 64`):
thread `idx < NUM_BUCKETS` scales its bucket by weight
`NUM_BUCKETS - idx`, other slots hold the identity; tree reduce with
strides 32..1 (all 64 threads run it); returns `F[0]`. -/
def passC (buckets : List ProjectivePoint256) : ProjectivePoint256 :=
  let nb := buckets.length
  let scaled := (List.range 64).map fun i =>
    if i < nb then
      scaleLoop 32 (nb - i) identityPoint (buckets.getD i identityPoint)
    else identityPoint
  ([32, 16, 8, 4, 2, 1].foldl (reduceRound 64) scaled).getD 0 identityPoint

/-- Pass E (part_002 lines 917–1006), one workgroup: loads the batch-final
points padded with identities, tree reduces (strides 32..1), and converts
the result to affine (identity gives `(0, 0)`). -/
def passE (batchFinal : List ProjectivePoint256) (n : ℕ) : Point256 :=
  let wgl := (List.range 64).map fun i =>
    if i < n then batchFinal.getD i identityPoint else identityPoint
  let red := ([32, 16, 8, 4, 2, 1].foldl (reduceRound 64) wgl).getD 0
    identityPoint
  to_affine_256 red PALLAS_R2 PALLAS_MONT_INV32 PALLAS_P PALLAS_P_MINUS_2

/-- The async host `pippengerMSMPallas` (to_montgomery.spec.ts lines
80–853) in the regime this model covers: one batch and one workgroup
(`n ≤ 64`, `2^bucketWidthBits ≤ 64`; the final guard returns `none`
outside it).  The host validates, uploads, runs Pass A and the per-bucket
Bi1 dispatches, then runs the Bi2 reduction loop `while (currentN_Bi2 > 1)`
with `currentN_Bi2 = numWorkgroupsBi1 = 1` — the loop body never executes,
so the bucket buffer keeps its zero-initialized contents and the Bi1
results in `WGG` are never consumed.  Pass C aggregates the (identity)
buckets into `F[0]`; the Pass D loop `while (currentN_D > 1)` with
`currentN_D = numWorkgroupsC = 1` is likewise skipped, so `batch_final`
keeps its zero-initialized contents and `F` is never consumed.  Pass E
runs once over `batch_final` and writes the affine result that the host
reads back. -/
def pippengerMSMPallas_async (scalars : List ℕ) (pts : List (ℕ × ℕ))
    (bucketWidthBits : ℕ) : Option (ℕ × ℕ) :=
  let n := scalars.length
  if n = 0 then none
  else if pts.length ≠ n then none
  else if bucketWidthBits < 1 ∨ 22 < bucketWidthBits then none
  else if 64 < n ∨ 64 < 2 ^ bucketWidthBits then none
  else
    let nb := 2 ^ bucketWidthBits
    let k := scalars.map bigint256ToLimbs
    let proj := pts.map fun xy =>
      to_projective_256 (bigint256ToLimbs xy.1) (bigint256ToLimbs xy.2)
        PALLAS_R2 PALLAS_MONT_INV32 PALLAS_P
    let wgg := (List.range nb).map fun b => passBi1 k proj bucketWidthBits b
    let bbuf := List.replicate nb identityPoint
    let f0 := passC bbuf
    let batchFinal := List.replicate 1 identityPoint
    let final := passE batchFinal 1
    some (limbs256ToBigint final.x, limbs256ToBigint final.y)

/-- `p - 1`: the x-coordinate of the on-curve Pallas point `(p-1, 2)`
(indeed `(p-1)^3 + 5 ≡ 4 = 2^2 mod p`). -/
def pallasPm1 : ℕ :=
  0x40000000000000000000000000000000224698fc094cf91b992d30ed00000000

/-- C1 (divergence evaluation): `msm([1], [(p-1, 2)])` with bucket width 1
returns `(0, 0)`, not the input point: the skipped Bi2 and Pass D loops
leave the bucket and batch-final buffers at their zero-initialized
(identity) contents, so Pass E converts the identity to affine `(0, 0)`. -/
theorem pippengerMSMPallas_async_one_point_bug :
    pippengerMSMPallas_async [1] [(pallasPm1, 2)] 1 = some (0, 0) ∧
    (pallasPm1, (2 : ℕ)) ≠ ((0 : ℕ), (0 : ℕ)) := by decide

/-- C3 (divergence evaluation): a bucket value left by an earlier batch
(here the nonzero-z point `(1,1,1)` in limb form) is destroyed by the next
batch's final Bi2 write: with the new batch contributing only the identity,
the bucket ends as the identity, although adding the batch contribution
into the bucket (as cross-batch accumulation requires) would have left the
earlier value in place. -/
theorem passBi2_overwrites :
    passBi2 [identityPoint] 1 [⟨one8, one8, one8⟩] 0 = [identityPoint] ∧
    point_add_proj_256 ⟨one8, one8, one8⟩ identityPoint PALLAS_MONT_INV32
        PALLAS_P = ⟨one8, one8, one8⟩ ∧
    (⟨one8, one8, one8⟩ : ProjectivePoint256) ≠ identityPoint := by decide

/-- The reference running-sum bucket aggregation of claim C4 (spec-side
definition, from the claim's words): `running += B[j]; acc += running` for
`j = B-1` down to `1`, i.e. `Σ_{j=1}^{B-1} j·B[j]`. -/
def refLoop (buckets : List ProjectivePoint256) :
    ℕ → ProjectivePoint256 → ProjectivePoint256 → ProjectivePoint256
  | 0, _, acc => acc
  | j + 1, running, acc =>
    refLoop buckets j
      (point_add_proj_256 running (buckets.getD (j + 1) identityPoint)
        PALLAS_MONT_INV32 PALLAS_P)
      (point_add_proj_256 acc
        (point_add_proj_256 running (buckets.getD (j + 1) identityPoint)
          PALLAS_MONT_INV32 PALLAS_P) PALLAS_MONT_INV32 PALLAS_P)

/-- Spec-side reference aggregation for claim C4 (see `refLoop`). -/
def referenceRunningSumAgg (buckets : List ProjectivePoint256) :
    ProjectivePoint256 :=
  refLoop buckets (buckets.length - 1) identityPoint identityPoint

/-- Jacobian same-point test: exactly the `U1 = U2 ∧ S1 = S2` comparison
that `point_add_proj_256` itself performs to detect equal points
(`x1·z2² = x2·z1²` and `y1·z2³ = y2·z1³`, all in reduced Montgomery
form). -/
def sameJacobianPoint (P Q : ProjectivePoint256) : Bool :=
  let z1z1 := mont_mul_256 P.z P.z PALLAS_MONT_INV32 PALLAS_P
  let z2z2 := mont_mul_256 Q.z Q.z PALLAS_MONT_INV32 PALLAS_P
  let u1 := mont_mul_256 P.x z2z2 PALLAS_MONT_INV32 PALLAS_P
  let u2 := mont_mul_256 Q.x z1z1 PALLAS_MONT_INV32 PALLAS_P
  let s1 := mont_mul_256 P.y (mont_mul_256 Q.z z2z2 PALLAS_MONT_INV32
    PALLAS_P) PALLAS_MONT_INV32 PALLAS_P
  let s2 := mont_mul_256 Q.y (mont_mul_256 P.z z1z1 PALLAS_MONT_INV32
    PALLAS_P) PALLAS_MONT_INV32 PALLAS_P
  (((List.range 8).all fun i => u1.getD i 0 == u2.getD i 0) &&
    ((List.range 8).all fun i => s1.getD i 0 == s2.getD i 0))

/-- The Montgomery-form projective on-curve point `(p-1, 2)`. -/
def pallasGen : ProjectivePoint256 :=
  to_projective_256 (bigint256ToLimbs pallasPm1) (bigint256ToLimbs 2)
    PALLAS_R2 PALLAS_MONT_INV32 PALLAS_P

set_option maxRecDepth 100000 in
set_option maxHeartbeats 2000000 in
/-- C4 (counterexample): with 4 buckets, `B[0]` the identity and
`B[1] = (p-1, 2)`, Pass C computes `(4-1)·B[1] = 3·B[1]` while the
reference computes `1·B[1]`; the two are different group elements (their
Jacobian cross products differ and neither is the identity). -/
theorem passC_counterexample :
    sameJacobianPoint
        (passC [identityPoint, pallasGen, identityPoint, identityPoint])
        (referenceRunningSumAgg
          [identityPoint, pallasGen, identityPoint, identityPoint])
      = false ∧
    is_infinity_proj_256
        (passC [identityPoint, pallasGen, identityPoint, identityPoint])
      = false ∧
    is_infinity_proj_256 (referenceRunningSumAgg
        [identityPoint, pallasGen, identityPoint, identityPoint])
      = false := by decide

/-- Pass C's per-thread weight (part_002 line 766:
`weight = NUM_BUCKETS - idx`). -/
def passCWeight (numBuckets idx : ℕ) : ℕ := numBuckets - idx

/-- C4 (amended): in any commutative group, Pass C's `(B - idx)` weighting
equals `B` times the bucket total minus the reference weighting
`Σ j·g j`; the two aggregations agree only when these differ by the
identity, not for every assignment with `g 0` the identity. -/
theorem passC_weighting_amended (B : ℕ) (M : Type) [AddCommGroup M]
    (g : ℕ → M) :
    ∑ j ∈ Finset.range B, (passCWeight B j : ℤ) • g j
      = (B : ℤ) • (∑ j ∈ Finset.range B, g j)
        - ∑ j ∈ Finset.range B, (j : ℤ) • g j := by
  rw [Finset.smul_sum, ← Finset.sum_sub_distrib]
  refine Finset.sum_congr rfl fun j hj => ?_
  have hj' : j < B := Finset.mem_range.mp hj
  have hcast : ((passCWeight B j : ℕ) : ℤ) = (B : ℤ) - (j : ℤ) := by
    show ((B - j : ℕ) : ℤ) = (B : ℤ) - (j : ℤ)
    exact_mod_cast Nat.cast_sub hj'.le
  rw [hcast, sub_smul]

theorem passC_weighting_amended_witness :
    ∑ j ∈ Finset.range 4, (passCWeight 4 j : ℤ) • ((j : ℤ) + 1)
      = (4 : ℤ) • (∑ j ∈ Finset.range 4, ((j : ℤ) + 1))
        - ∑ j ∈ Finset.range 4, (j : ℤ) • ((j : ℤ) + 1) :=
  passC_weighting_amended 4 ℤ (fun j => (j : ℤ) + 1)

/-- Source: the synchronous `pippengerMSMPallas`
(pippenger_msm.ts lines 18–257).  After the two validations it creates
shader modules, pipelines, buffers and bind groups for passes A, Bi1, Bi2
and C in a chunk loop, but never begins a compute pass, never dispatches,
and reads nothing back, finally returning `{x: 0n, y: 0n}`; the
GPU-resource construction cannot influence the returned value and is
omitted from the embedding. -/
def pippengerMSMPallas_sync (scalars : List ℕ) (pts : List (ℕ × ℕ)) :
    Except String (ℕ × ℕ) :=
  let n := scalars.length
  if n = 0 then Except.error "scalars and points arrays cannot be empty"
  else if pts.length ≠ n then
    Except.error "scalars and points must have the same length"
  else Except.ok (0, 0)

/-- C10: for every non-empty pair of equal-length inputs the synchronous
entry point returns the affine point `(0, 0)`, independent of the
values. -/
theorem pippengerMSMPallas_sync_spec (scalars : List ℕ)
    (pts : List (ℕ × ℕ)) (hne : scalars ≠ [])
    (hlen : pts.length = scalars.length) :
    pippengerMSMPallas_sync scalars pts = Except.ok (0, 0) := by
  have hn : scalars.length ≠ 0 := fun h => hne (List.length_eq_zero.mp h)
  simp only [pippengerMSMPallas_sync]
  rw [if_neg hn, if_neg (by omega)]

theorem pippengerMSMPallas_sync_spec_witness :
    pippengerMSMPallas_sync [1, 2] [(3, 4), (5, 6)] = Except.ok (0, 0) :=
  pippengerMSMPallas_sync_spec [1, 2] [(3, 4), (5, 6)] (by decide) (by decide)
